import Mathlib

set_option maxRecDepth 4000

/-!
# Verification of the dandelions phylogenetic-tree engine

A shallow embedding, in Lean 4, of the algorithmic core of the dandelions
repository (src/src/tree.cpp, src/network.cpp, src/src/main_frame.cpp,
src/src/util.cpp), together with theorems settling the frozen claims about
its natural-language specification.

Modelling conventions:
* C++ `std::string` sequences become `List Char`.
* `uint32_t` arithmetic is `Nat` with explicit `% 2 ^ 32` where overflow can
  occur; `float`/`double` accumulators with exact small-integer content
  become `ℚ`, and the physics simulation state becomes `ℝ`.
* Randomness (`std::shuffle`, `std::mt19937`) is made explicit: every
  randomized function takes the permutation / oracle it would have drawn.
* Exceptions become `Except String`.
-/

namespace Dandelions

/-- `2^32`, the modulus of C++ `uint32_t` arithmetic. -/
def U32 : ℕ := 2 ^ 32

/-- `std::numeric_limits<uint32_t>::max()`; used as `MAX_D` in `build_mst`
and as `PCT_MAX` in `build_consensus_mst` (tree.cpp). -/
def MAX_D : ℕ := U32 - 1

/-- `hamming_distance` (tree.cpp:189-194).  The C++ loop walks the first
sequence and reads the second in lockstep, counting mismatches; it is well
defined whenever the second sequence is at least as long as the first (the
regime the code exercises), and we model it by zipping the two lists, which
agrees with the C++ on that regime. -/
def hamming_distance (a b : List Char) : ℕ :=
  (a.zip b).countP (fun p => p.1 ≠ p.2)

/-- The `Matrix<uint32_t>` wrapper (matrix.h) restricted to what the tree
code uses: a size and an entry function. -/
structure Mtx where
  rows : ℕ
  cols : ℕ
  entry : ℕ → ℕ → ℕ

/-- The `root_distance` vector captured from row 0 of the Hamming matrix in
`make_distance_matrix` (tree.cpp:229): distance of sequence `j` from the
root sequence 0, as a `uint32_t`. -/
def root_distance (seqs : List (List Char)) (j : ℕ) : ℕ :=
  hamming_distance (seqs.getD 0 []) (seqs.getD j []) % U32

/-- `make_distance_matrix` (tree.cpp:217-239).  First the symmetric Hamming
fill (the diagonal keeps its initial 0, which coincides with
`hamming_distance s s`), then every entry is shifted left 16 bits and ORed
with the column's root distance, all in `uint32_t`. -/
def make_distance_matrix (seqs : List (List Char)) : Mtx where
  rows := seqs.length
  cols := seqs.length
  entry := fun i j =>
    ((hamming_distance (seqs.getD i []) (seqs.getD j []) % U32) * 2 ^ 16) % U32
      ||| root_distance seqs j

/-- The `Edge` record (tree.h): one edge of the consensus tree.  The C++
`float weight` is modelled as `ℚ` (its value is always a quotient of small
integers, `count / n_samples`). -/
structure Edge where
  parent : ℕ
  child : ℕ
  distance : ℕ
  weight : ℚ
deriving DecidableEq

/-- `std::string::npos` (`size_t` maximum), compared against in
`infer_markov_model`. -/
def npos : ℕ := 2 ^ 64 - 1

deriving instance DecidableEq for Except

/-- The lookup table of `infer_markov_model` (tree.cpp:633-637): a
zero-initialized `std::array<size_t, 256>` with only the entries for
'A', 'C', 'G', 'T' assigned, so every other character (including the gap
'-') silently maps to 0, the index of 'A'. -/
def markov_lut (c : Char) : ℕ :=
  if c = 'C' then 1 else if c = 'G' then 2 else if c = 'T' then 3 else 0

/-- The tallying loop of `infer_markov_model` (tree.cpp:639-653).  The 4×4
`Matrix<double>` and the `csums` vector are modelled as their index
functions (entry `(r, c)` of the row-major buffer at index `r * 4 + c`),
doubles as `ℚ`, the `throw std::domain_error` as `Except.error`.  The guard
`c == npos || r == npos` is translated verbatim: `markov_lut` never returns
`npos`, so the guard is dead code, exactly as in the C++.  Out-of-range
`cnts[i]` reads (undefined in C++) default to 'A'. -/
def markov_counts (seqs : List (List Char)) (adj : List Edge) :
    Except String ((ℕ → ℚ) × (ℕ → ℚ)) :=
  adj.foldlM (fun (st : (ℕ → ℚ) × (ℕ → ℚ)) e =>
    let pnts := seqs.getD e.parent []
    let cnts := seqs.getD e.child []
    (List.range pnts.length).foldlM (fun (st2 : (ℕ → ℚ) × (ℕ → ℚ)) i =>
      let c := markov_lut (pnts.getD i 'A')
      let r := markov_lut (cnts.getD i 'A')
      if c = npos ∨ r = npos then
        Except.error "infer_markov_model not supported for gapped sequences."
      else
        Except.ok (fun k => if k = r * 4 + c then st2.1 k + 1 else st2.1 k,
                   fun k => if k = c then st2.2 k + 1 else st2.2 k)) st)
    (fun _ => 0, fun _ => 0)

/-- The column-normalization loop of `infer_markov_model` (tree.cpp:655-661):
a column with zero tallies gets a 1 on the diagonal; any other column is
divided by its sum. -/
def markov_normalize (st : (ℕ → ℚ) × (ℕ → ℚ)) : ℕ → ℚ :=
  (List.range 4).foldl (fun mm c =>
    if st.2 c = 0 then fun k => if k = c * 4 + c then 1 else mm k
    else (List.range 4).foldl (fun mm2 r =>
      fun k => if k = r * 4 + c then mm2 k / st.2 c else mm2 k) mm) st.1

/-- `infer_markov_model` (tree.cpp:627-664): tally substitutions along the
edge list, then column-normalize. -/
def infer_markov_model (seqs : List (List Char)) (adj : List Edge) :
    Except String (ℕ → ℚ) :=
  match markov_counts seqs adj with
  | .error e => .error e
  | .ok st => .ok (markov_normalize st)

/-- Observation helper: entry `i` of the returned matrix buffer, or `none`
when the call reported an error. -/
def exceptApply (e : Except String (ℕ → ℚ)) (i : ℕ) : Option ℚ :=
  match e with
  | .ok f => some (f i)
  | .error _ => none

/-- The per-vertex record of `build_mst` (tree.cpp:461-465): candidate child
`c`, its best known parent `p`, and the best known distance `d`. -/
structure Join where
  p : ℕ
  c : ℕ
  d : ℕ
deriving DecidableEq

instance : Inhabited Join := ⟨⟨0, 0, 0⟩⟩

/-- The candidate distance of `build_mst`'s inner loop (tree.cpp:482-490):
the matrix entry when both indices are in range, otherwise recomputed from
the sequences with the same `(d1 << 16) | (d2 & 0xFFFF)` packing, in
`uint32_t`. -/
def mst_distance (seqs : List (List Char)) (dism : Mtx) (c p : ℕ) : ℕ :=
  if c < dism.rows ∧ p < dism.cols then dism.entry c p
  else ((hamming_distance (seqs.getD c []) (seqs.getD p []) % U32) * 2 ^ 16) % U32
        ||| ((hamming_distance (seqs.getD p []) (seqs.getD 0 []) % U32) &&& 65535)

/-- The relaxation step of `build_mst` (tree.cpp:492-495): update a
candidate's best edge when the distance to the last-added vertex is
strictly smaller. -/
def relax (seqs : List (List Char)) (dism : Mtx) (last : ℕ) (j : Join) : Join :=
  let d := mst_distance seqs dism j.c last
  if d < j.d then ⟨last, j.c, d⟩ else j

/-- Index of the first join with minimal `d`, matching the scan of
tree.cpp:497-500 (only strict improvements move `min_i`). -/
def argmin_d : List Join → ℕ
  | [] => 0
  | [_] => 0
  | j :: jj :: t =>
    let k := argmin_d (jj :: t)
    if ((jj :: t).getD k default).d < j.d then k + 1 else 0

/-- The pivot loop of `build_mst` (tree.cpp:477-504): relax every remaining
join against the last-added vertex, pick the first join of minimal
distance, swap it into the pivot position, and recurse on the remainder.
Returns the joins in the order they were attached. -/
def prim_loop (seqs : List (List Char)) (dism : Mtx) : Join → List Join → List Join
  | _, [] => []
  | last, h :: t =>
    let rest := (h :: t).map (relax seqs dism last.c)
    let k := argmin_d rest
    let chosen := rest.getD k default
    chosen :: prim_loop seqs dism chosen ((rest.set k (rest.headD default)).tail)
termination_by _ l => l.length
decreasing_by simp

/-- `build_mst`'s join list: the initial joins are `{p = 0, c = i, d = MAX_D}`
in the visitation order `order` (the identity order `0, 1, 2, …` when
`shuffle_sequences` is false; any permutation fixing position 0 when true —
the `std::shuffle` of tree.cpp:471-475 never moves `joins[0]`), then the
pivot loop attaches them all. -/
def build_mst_joins (seqs : List (List Char)) (dism : Mtx) (order : List ℕ) :
    List Join :=
  match order.map (fun c => (⟨0, c, MAX_D⟩ : Join)) with
  | [] => []
  | h :: t => h :: prim_loop seqs dism h t

/-- The final write-back `tree[j.c] = j.p` of tree.cpp:506-508, as a parent
function (entries never written stay 0, the vector's initial value). -/
def tree_of_joins (js : List Join) : ℕ → ℕ :=
  fun c => ((js.reverse.find? (fun j => j.c = c)).getD ⟨0, c, 0⟩).p

/-- `dim = max(sequences.size(), dism.rows())` (tree.cpp:459). -/
def mst_dim (seqs : List (List Char)) (dism : Mtx) : ℕ := max seqs.length dism.rows

/-- `build_mst` (tree.cpp:444-509) with its randomness made explicit:
`seqs` is the vertex sequence list (input plus any inferred ancestors) and
`order` the post-shuffle visitation order of the vertex indices. -/
def build_mst (seqs : List (List Char)) (dism : Mtx) (order : List ℕ) : ℕ → ℕ :=
  tree_of_joins (build_mst_joins seqs dism order)

/-- Fuel-indexed variant of `prim_loop`, structurally recursive on the fuel
so that concrete runs reduce inside the kernel.  `prim_loop_eq_fuel` below
shows it agrees with `prim_loop` whenever the fuel covers the list. -/
def prim_loop_fuel (seqs : List (List Char)) (dism : Mtx) :
    ℕ → Join → List Join → List Join
  | 0, _, _ => []
  | _ + 1, _, [] => []
  | n + 1, last, h :: t =>
    let rest := (h :: t).map (relax seqs dism last.c)
    let k := argmin_d rest
    let chosen := rest.getD k default
    chosen :: prim_loop_fuel seqs dism n chosen ((rest.set k (rest.headD default)).tail)

/-- `build_mst_joins` computed through the fuel-indexed loop. -/
def build_mst_joins_fuel (seqs : List (List Char)) (dism : Mtx)
    (order : List ℕ) : List Join :=
  match order.map (fun c => (⟨0, c, MAX_D⟩ : Join)) with
  | [] => []
  | h :: t => h :: prim_loop_fuel seqs dism t.length h t

/-- `build_mst` computed through the fuel-indexed loop. -/
def build_mst_fuel (seqs : List (List Char)) (dism : Mtx) (order : List ℕ) :
    ℕ → ℕ :=
  tree_of_joins (build_mst_joins_fuel seqs dism order)

/-- The re-parenting walk `while (input.size() <= p) p = tree[p]`
(tree.cpp:600-601 and 617): climb the tree until a real (index `< N`)
vertex is reached.  The C++ loop has no bound; `fuel` makes the recursion
total, and the callers below always pass fuel exceeding the walk length. -/
def resolve (tree : ℕ → ℕ) (N : ℕ) : ℕ → ℕ → ℕ
  | 0, p => p
  | fuel + 1, p => if p < N then p else resolve tree N fuel (tree p)

/-- The resolved (real-ancestor-only) parent of child `c`:
`p = tree[c]` followed by the climb. -/
def resolved_parent (tree : ℕ → ℕ) (N fuel c : ℕ) : ℕ := resolve tree N fuel (tree c)

/-- `uint32_t` decrement with wraparound (`pct[{c, p}] -= 1`,
tree.cpp:603). -/
def dec32 (x : ℕ) : ℕ := (x + (U32 - 1)) % U32

/-- The vertex set of one consensus sample: the input sequences, extended by
that sample's inferred ancestors when `do_infer_ancestors` is set
(tree.cpp:451-457).  The inferred list is the randomness oracle standing
for the randomized `infer_ancestors` run. -/
def sample_seqs (input : List (List Char)) (do_infer : Bool)
    (s : List (List Char) × List ℕ) : List (List Char) :=
  input ++ (if do_infer then s.1 else [])

/-- The MST produced by one sample: `build_mst(sequences, dism, true,
do_infer_ancestors)` with that sample's shuffle order. -/
def sample_tree (input : List (List Char)) (do_infer : Bool) (dism : Mtx)
    (s : List (List Char) × List ℕ) : ℕ → ℕ :=
  build_mst (sample_seqs input do_infer s) dism s.2

/-- The vertex count of one sample's MST, used as resolution fuel. -/
def sample_dim (input : List (List Char)) (do_infer : Bool) (dism : Mtx)
    (s : List (List Char) × List ℕ) : ℕ :=
  mst_dim (sample_seqs input do_infer s) dism

/-- One decrement `pct[{c, p}] -= 1` of the aggregation loop, as a map
update: `rp c` is the resolved parent of child `c`. -/
def pct_step (rp : ℕ → ℕ) (pct2 : ℕ → ℕ → ℕ) (c : ℕ) : ℕ → ℕ → ℕ :=
  fun a b => if a = c ∧ b = rp c then dec32 (pct2 a b) else pct2 a b

/-- The occurrence table `pct` after aggregating all samples
(tree.cpp:576, 596-608): every entry starts at `PCT_MAX` and, for every
sample and every non-root child `c < N`, the entry at `(c, resolved
parent)` is decremented once. -/
def pct_after (input : List (List Char)) (do_infer : Bool) (dism : Mtx)
    (samples : List (List (List Char) × List ℕ)) : ℕ → ℕ → ℕ :=
  samples.foldl (fun pct s =>
    (List.range' 1 (input.length - 1)).foldl
      (pct_step (fun c => resolved_parent (sample_tree input do_infer dism s)
        input.length (sample_dim input do_infer dism s) c)) pct)
    (fun _ _ => MAX_D)

/-- The number of samples producing exactly the resolved pair
`(child c, parent p)`. -/
def sample_count (input : List (List Char)) (do_infer : Bool) (dism : Mtx)
    (samples : List (List (List Char) × List ℕ)) (c p : ℕ) : ℕ :=
  (samples.filter (fun s =>
    resolved_parent (sample_tree input do_infer dism s) input.length
      (sample_dim input do_infer dism s) c = p)).length

/-- `build_consensus_mst` (tree.cpp:569-625) with its randomness made
explicit: `samples` carries, for each of the `n_samples` parallel samples,
the inferred-ancestor oracle and the shuffle order.  The distance matrix is
computed from the input, every sample's resolved parent assignments
decrement the `pct` table, a final unshuffled MST is built over `pct`, and
the edge list is emitted with distance `dism[{c, p}] >> 16` and weight
`(PCT_MAX - (pct[{c, p}] & PCT_MAX)) / n_samples` (the `float` as `ℚ`).
The diagnostic parsimony printing of the C++ is I/O only and is dropped. -/
def build_consensus_mst (input : List (List Char)) (n_samples : ℕ)
    (do_infer : Bool) (samples : List (List (List Char) × List ℕ)) : List Edge :=
  let dism := make_distance_matrix input
  let pct := pct_after input do_infer dism samples
  let pctM : Mtx := ⟨input.length, input.length, pct⟩
  let tree := build_mst [] pctM (List.range input.length)
  (List.range' 1 (input.length - 1)).map (fun c =>
    let p := tree c
    ⟨p, c, dism.entry c p >>> 16,
      ((MAX_D - (pct c p &&& MAX_D) : ℕ) : ℚ) / (n_samples : ℚ)⟩)

/-- "Parents attached earlier": every join's parent is among `A` (the
vertices attached before this run) or the `c` of an earlier join of the
run.  This is the structural fact Prim's loop guarantees about its
output. -/
def goodFrom (A : List ℕ) : List Join → Prop
  | [] => True
  | j :: t => j.p ∈ A ∧ goodFrom (j.c :: A) t

/-- Loop invariant for the final (unshuffled) Prim run over the decremented
`pct` table: `A` is the set of vertices attached before `last`, every
remaining join records either the already-discovered edge to its resolved
parent (distance `MAX_D - 1`) or nothing yet (distance `MAX_D`, parent 0),
and the attached set is closed under the resolved-parent map `rp`. -/
def pct_inv (N : ℕ) (rp : ℕ → ℕ) (A : List ℕ) (last : Join)
    (rest : List Join) : Prop :=
  (0 ∈ A ∨ last.c = 0) ∧
  last.c < N ∧
  last.c ∉ A ∧
  (last.c = 0 ∨ rp last.c ∈ A) ∧
  (∀ a ∈ A, a = 0 ∨ rp a ∈ A) ∧
  (∀ x, 1 ≤ x → x < N → (x ∈ A ∨ x = last.c ∨ x ∈ rest.map (fun j => j.c))) ∧
  (∀ j ∈ rest, 1 ≤ j.c ∧ j.c < N ∧ j.c ∉ A ∧ j.c ≠ last.c) ∧
  (∀ j ∈ rest, (rp j.c ∈ A ∧ j.d = MAX_D - 1 ∧ j.p = rp j.c)
      ∨ (rp j.c ∉ A ∧ j.d = MAX_D ∧ j.p = 0)) ∧
  (rest.map (fun j => j.c)).Nodup

/-- The number of unordered node pairs, `ptrs_.size() * (ptrs_.size() - 1) / 2`
(network.cpp:299): size of the packed lower-triangular enumeration. -/
def n_pairs (n : ℕ) : ℕ := n * (n - 1) / 2

/-- The per-worker chunk `(n*(n-1)/2) / n_workers` (network.cpp:299),
`size_t` integer division. -/
def worker_chunk (n n_workers : ℕ) : ℕ := n_pairs n / n_workers

/-- Lower bound of worker `i`'s linear-index range, `i * chunk`
(network.cpp:306). -/
def worker_lo (n n_workers i : ℕ) : ℕ := i * worker_chunk n n_workers

/-- Upper bound of worker `i`'s linear-index range, translated verbatim from
network.cpp:307: `(i == ptrs_.size() - 1) ? ptrs_.size() : (i + 1) * chunk`.
Note both the comparison (against the node count, not `n_workers_ - 1`) and
the then-branch (the node count, not the pair count) come from the source. -/
def worker_hi (n n_workers i : ℕ) : ℕ :=
  if i = n - 1 then n else (i + 1) * worker_chunk n n_workers

/-- The binary-tree shape handed to `fitch_label_up` (tree.cpp): leaves carry
an initialized bitmask sequence `bseq`; internal nodes have one child (the
re-rooted residue case) or two, and start with `bseq` empty. -/
inductive FTree where
  | leaf : List ℕ → FTree
  | one : FTree → FTree
  | two : FTree → FTree → FTree

/-- The same tree after the upward pass: every node carries a `bseq`. -/
inductive LTree where
  | leaf : List ℕ → LTree
  | one : List ℕ → LTree → LTree
  | two : List ℕ → LTree → LTree → LTree

/-- The bitmask sequence at the root of a labeled (sub)tree. -/
def LTree.bseq : LTree → List ℕ
  | .leaf s => s
  | .one s _ => s
  | .two s _ _ => s

/-- The per-position combination of `fitch_label_up` (tree.cpp:338):
`(l & r) ? (l & r) : (l | r)`. -/
def fitch_combine (a b : ℕ) : ℕ := if a &&& b ≠ 0 then a &&& b else a ||| b

/-- `fitch_label_up` (tree.cpp:316-348).  The C++ walks the tree iteratively,
labeling each internal node as soon as its children are labeled, which
realizes exactly this post-order recursion: a two-child node combines its
children's finished bitmasks position by position (the C++ asserts the two
bitmasks have equal length; `zipWith` agrees on that regime), and a
one-child node copies its child's bitmask. -/
def fitch_label_up : FTree → LTree
  | .leaf s => .leaf s
  | .one c =>
      let lc := fitch_label_up c
      .one lc.bseq lc
  | .two l r =>
      let ll := fitch_label_up l
      let lr := fitch_label_up r
      .two (List.zipWith fitch_combine ll.bseq lr.bseq) ll lr

/-- The claim `C9` property, recursively over the labeled tree: every
two-child node holds, at each position, the intersection of its children's
ambiguity bitmasks when non-empty and otherwise their union; every
one-child node copies its child's bitmask unchanged. -/
def FitchOK : LTree → Prop
  | .leaf _ => True
  | .one s c => s = c.bseq ∧ FitchOK c
  | .two s l r =>
      s.length = min l.bseq.length r.bseq.length
      ∧ (∀ i, i < s.length →
          s.getD i 0 =
            if l.bseq.getD i 0 &&& r.bseq.getD i 0 ≠ 0
            then l.bseq.getD i 0 &&& r.bseq.getD i 0
            else l.bseq.getD i 0 ||| r.bseq.getD i 0)
      ∧ FitchOK l ∧ FitchOK r

/-- `EPSILON_` (network.h): the literal `1e-4f`. -/
def EPSILON_ : ℚ := 1 / 10000

/-- `ltri_ij` (util.cpp:130-142): recover the `(i, j)` node pair (with
`j < i`) from the packed lower-triangular linear index `k`.  The C++ routine
evaluates the triangle-root formula in `double` (its own comment notes the
rounding is exact for the sizes in use); the embedding computes the same
quantity exactly with the floor square root `isqrt`.  `1 + 8 * (k + 1)` is
odd, so it is a perfect square exactly when the double formula lands on an
integer. -/
def isqrt (n : ℕ) : ℕ :=
  ((List.range (n + 2)).filter (fun r => r * r ≤ n)).length - 1

def ltri_ij (k : ℕ) : ℕ × ℕ :=
  let k1 := k + 1
  let s := isqrt (1 + 8 * k1)
  let i := (s - 1) / 2
  if s * s = 1 + 8 * k1 then (i, i - 1)
  else (i + 1, k1 - i * (i + 1) / 2 - 1)

/-- One step of the worker's incremental `(i, j)` walk
(network.cpp:275-278): `if (++j == i) { ++i; j = 0; }`. -/
def ltri_next (p : ℕ × ℕ) : ℕ × ℕ :=
  if p.2 + 1 = p.1 then (p.1 + 1, 0) else (p.1, p.2 + 1)

/-- The node pairs visited by a worker starting from pair `p`, for `len`
loop iterations (the C++ `for (li = lo; li != hi; ++li)`; a range with
`hi < lo` never terminates in C++ and is modelled as empty). -/
def iterate_pairs : ℕ × ℕ → ℕ → List (ℕ × ℕ)
  | _, 0 => []
  | p, n + 1 => p :: iterate_pairs (ltri_next p) n

/-- The simulation state of `Network` (network.h): node count and the
parallel arrays `x_`, `y_`, `vx_`, `vy_`, `m_`, `pins_` as index functions.
`pins_` is the C++ `uint8_t` multiplier (1 free, 0 pinned), modelled in `ℚ`
as it is only ever used in `float` arithmetic. -/
structure NetState where
  n : ℕ
  x : ℕ → ℚ
  y : ℕ → ℚ
  vx : ℕ → ℚ
  vy : ℕ → ℚ
  m : ℕ → ℚ
  pins : ℕ → ℚ

/-- The simulation parameters read at the top of `simulate_step`
(network.cpp:285-291). -/
structure SimParams where
  B : ℚ
  C : ℚ
  E : ℚ
  G : ℚ
  K : ℚ
  Vmax : ℚ
  dT : ℚ

/-- The default parameter values of network.h (`G = -0.1`, `C = 0.001`,
`B = 1`, `K = 0.25`, `E = 1`, `V = 0.2`, `T = 1`). -/
def default_params : SimParams := ⟨1, 1 / 1000, 1, -1 / 10, 1 / 4, 1 / 5, 1⟩

/-- One spring/gravity force evaluation of `simulate_step_worker`
(network.cpp:245-269) for linear index `li` on node pair `p = (i, j)`:
`float` arithmetic as `ℚ`, with the square root supplied by the explicit
`sqrtQ` oracle standing for `sqrtf`. -/
def pair_force (st : NetState) (sL lL : ℕ → ℚ) (sqrtQ : ℚ → ℚ)
    (E G K : ℚ) (li : ℕ) (p : ℕ × ℕ) : ℚ × ℚ :=
  let dx := st.x p.2 - st.x p.1
  let dy := st.y p.2 - st.y p.1
  let r_sq0 := dx * dx + dy * dy
  let r0 := sqrtQ r_sq0
  let r_sq := max r_sq0 EPSILON_
  let r := max r0 EPSILON_
  let fg := G * st.m p.1 * st.m p.2 / r_sq
  let fs := (r - E * lL li) * (K * sL li)
  ((fg + fs) * dx / r, (fg + fs) * dy / r)

/-- The force a single worker accumulates on node `a` over its range
`[lo, lo + len)` (network.cpp:244-280): each visited pair adds the pair
force at `i` and subtracts it at `j`. -/
def worker_force (st : NetState) (sL lL : ℕ → ℚ) (sqrtQ : ℚ → ℚ)
    (E G K : ℚ) (lo len a : ℕ) : ℚ × ℚ :=
  ((List.range' lo len).zip (iterate_pairs (ltri_ij lo) len)).foldl
    (fun acc lp =>
      let f := pair_force st sL lL sqrtQ E G K lp.1 lp.2
      (acc.1 + (if a = lp.2.1 then f.1 else 0) - (if a = lp.2.2 then f.1 else 0),
       acc.2 + (if a = lp.2.1 then f.2 else 0) - (if a = lp.2.2 then f.2 else 0)))
    (0, 0)

/-- The total force on node `a`: the per-worker outputs summed by
network.cpp:322-330, with every worker `w < n_workers` covering the
(buggy, see `worker_hi`) range `[worker_lo w, worker_hi w)`. -/
def total_force (st : NetState) (sL lL : ℕ → ℚ) (sqrtQ : ℚ → ℚ)
    (E G K : ℚ) (nw a : ℕ) : ℚ × ℚ :=
  (List.range nw).foldl
    (fun acc w =>
      let f := worker_force st sL lL sqrtQ E G K (worker_lo st.n nw w)
        (worker_hi st.n nw w - worker_lo st.n nw w) a
      (acc.1 + f.1, acc.2 + f.2))
    (0, 0)

/-- The tentative velocity of node `i` after the acceleration update
(network.cpp:332-341): `d_v = (f - B*v - C*pos) / m`, then `v += d_v`. -/
def tent_v (P : SimParams) (sL lL : ℕ → ℚ) (sqrtQ : ℚ → ℚ) (nw : ℕ)
    (st : NetState) (i : ℕ) : ℚ × ℚ :=
  let f := total_force st sL lL sqrtQ P.E P.G P.K nw i
  (st.vx i + (f.1 - P.B * st.vx i - P.C * st.x i) / st.m i,
   st.vy i + (f.2 - P.B * st.vy i - P.C * st.y i) / st.m i)

/-- The speed-clamp loop body (network.cpp:344-352): compute the speed
`s = sqrt(vx² + vy²)`; when `s ≤ EPSILON_` the `continue` leaves the
tentative velocity untouched (pins included), otherwise the velocity is
scaled by `min(Vmax, s) / s * pins[i]`. -/
def clamp_v (P : SimParams) (sL lL : ℕ → ℚ) (sqrtQ : ℚ → ℚ) (nw : ℕ)
    (st : NetState) (i : ℕ) : ℚ × ℚ :=
  let v := tent_v P sL lL sqrtQ nw st i
  let s := sqrtQ (v.1 * v.1 + v.2 * v.2)
  if s ≤ EPSILON_ then v
  else (v.1 * (min P.Vmax s / s * st.pins i),
        v.2 * (min P.Vmax s / s * st.pins i))

/-- `Network::simulate_step` (network.cpp:284-364): force accumulation over
the workers, acceleration and velocity integration, the speed clamp, and
the position update `pos += dT * v`.  Square roots are supplied by the
`sqrtQ` oracle; the iteration counter return value is dropped. -/
def simulate_step (P : SimParams) (sL lL : ℕ → ℚ) (sqrtQ : ℚ → ℚ)
    (nw : ℕ) (st : NetState) : NetState :=
  ⟨st.n,
   fun i => st.x i + P.dT * (clamp_v P sL lL sqrtQ nw st i).1,
   fun i => st.y i + P.dT * (clamp_v P sL lL sqrtQ nw st i).2,
   fun i => (clamp_v P sL lL sqrtQ nw st i).1,
   fun i => (clamp_v P sL lL sqrtQ nw st i).2,
   st.m, st.pins⟩

/-- `Network::pin_node` (network.cpp:371-381) with the node addressed by
index: zero the node's velocity and set its pin multiplier to 0. -/
def pin_node (st : NetState) (i : ℕ) : NetState :=
  ⟨st.n, st.x, st.y,
   fun a => if a = i then 0 else st.vx a,
   fun a => if a = i then 0 else st.vy a,
   st.m,
   fun a => if a = i then 0 else st.pins a⟩

/-- What `simulate_step` actually guarantees for a pinned node `i`
(`pins i = 0`), in terms of the node's tentative post-integration velocity
`v` and its computed speed `s = sqrtQ (v.1² + v.2²)`: the pin survives; when
`s` exceeds `EPSILON_` the velocity is zeroed and the position is unchanged;
when `s ≤ EPSILON_` the `continue` skips the pin multiplier entirely, the
tentative velocity is kept and the position moves by `dT * v`; under the
defining properties of the square root at that point, that drift is bounded
by `dT * EPSILON_` per axis. -/
def pinned_step_ok (P : SimParams) (sL lL : ℕ → ℚ) (sqrtQ : ℚ → ℚ)
    (nw : ℕ) (st : NetState) (i : ℕ) : Prop :=
  let st2 := simulate_step P sL lL sqrtQ nw st
  let v := tent_v P sL lL sqrtQ nw st i
  let s := sqrtQ (v.1 * v.1 + v.2 * v.2)
  st2.pins i = st.pins i
  ∧ (EPSILON_ < s →
      st2.vx i = 0 ∧ st2.vy i = 0 ∧ st2.x i = st.x i ∧ st2.y i = st.y i)
  ∧ (s ≤ EPSILON_ →
      st2.vx i = v.1 ∧ st2.vy i = v.2
        ∧ st2.x i = st.x i + P.dT * v.1 ∧ st2.y i = st.y i + P.dT * v.2)
  ∧ (s ≤ EPSILON_ → 0 ≤ s → s * s = v.1 * v.1 + v.2 * v.2 → 0 ≤ P.dT →
      |st2.x i - st.x i| ≤ P.dT * EPSILON_
        ∧ |st2.y i - st.y i| ≤ P.dT * EPSILON_)

/-- The two-node configuration of the `C8` counterexample: both nodes at
`(1e-5, 0)`, unit masses, at rest, unpinned. -/
def cex_state : NetState :=
  ⟨2, fun _ => 1 / 100000, fun _ => 0, fun _ => 0, fun _ => 0,
   fun _ => 1, fun _ => 1⟩

/-- A square-root oracle agreeing with the exact square root on every
argument the `C8` counterexample run queries (`0` and `1e-16`). -/
def cex_sqrt : ℚ → ℚ := fun q => if q = 1 / 10 ^ 16 then 1 / 10 ^ 8 else 0

/-- The 64-codon translation table of `translate` (util.cpp:48-65). -/
def codon_table : List (List Char × Char) :=
  [(['A','A','A'], 'K'), (['A','A','C'], 'N'), (['A','A','G'], 'K'), (['A','A','T'], 'N'),
   (['A','C','A'], 'T'), (['A','C','C'], 'T'), (['A','C','G'], 'T'), (['A','C','T'], 'T'),
   (['A','G','A'], 'R'), (['A','G','C'], 'S'), (['A','G','G'], 'R'), (['A','G','T'], 'S'),
   (['A','T','A'], 'I'), (['A','T','C'], 'I'), (['A','T','G'], 'M'), (['A','T','T'], 'I'),
   (['C','A','A'], 'Q'), (['C','A','C'], 'H'), (['C','A','G'], 'Q'), (['C','A','T'], 'H'),
   (['C','C','A'], 'P'), (['C','C','C'], 'P'), (['C','C','G'], 'P'), (['C','C','T'], 'P'),
   (['C','G','A'], 'R'), (['C','G','C'], 'R'), (['C','G','G'], 'R'), (['C','G','T'], 'R'),
   (['C','T','A'], 'L'), (['C','T','C'], 'L'), (['C','T','G'], 'L'), (['C','T','T'], 'L'),
   (['G','A','A'], 'E'), (['G','A','C'], 'D'), (['G','A','G'], 'E'), (['G','A','T'], 'D'),
   (['G','C','A'], 'A'), (['G','C','C'], 'A'), (['G','C','G'], 'A'), (['G','C','T'], 'A'),
   (['G','G','A'], 'G'), (['G','G','C'], 'G'), (['G','G','G'], 'G'), (['G','G','T'], 'G'),
   (['G','T','A'], 'V'), (['G','T','C'], 'V'), (['G','T','G'], 'V'), (['G','T','T'], 'V'),
   (['T','A','A'], '*'), (['T','A','C'], 'Y'), (['T','A','G'], '*'), (['T','A','T'], 'Y'),
   (['T','C','A'], 'S'), (['T','C','C'], 'S'), (['T','C','G'], 'S'), (['T','C','T'], 'S'),
   (['T','G','A'], '*'), (['T','G','C'], 'C'), (['T','G','G'], 'W'), (['T','G','T'], 'C'),
   (['T','T','A'], 'L'), (['T','T','C'], 'F'), (['T','T','G'], 'L'), (['T','T','T'], 'F')]

/-- Codon lookup: the `translation.at(cdn)` map access; `none` models the
`std::out_of_range` throw on an unknown codon. -/
def codon_lookup (cdn : List Char) : Option Char :=
  (codon_table.find? (fun e => e.1 = cdn)).map (fun e => e.2)

/-- The collecting loop of `translate` (util.cpp:69-75): gap characters are
skipped, every third collected nucleotide closes a codon which is looked
up; a failed lookup (the C++ throw) aborts the whole translation. -/
def translate_go (cdn : List Char) : List Char → Option (List Char)
  | [] => some []
  | c :: rest =>
    let cdn1 := if c ≠ '-' then cdn ++ [c] else cdn
    if cdn1.length = 3 then
      match codon_lookup cdn1 with
      | none => none
      | some aa => (translate_go [] rest).map (fun aas => aa :: aas)
    else translate_go cdn1 rest

/-- `translate` (util.cpp:46-78). -/
def translate (nts : List Char) : Option (List Char) := translate_go [] nts

/-- The scan of `find_codon_boundaries` (main_frame.cpp:331-348): walk the
gapped sequence counting non-gap characters; each time the count reaches 3
emit `(lo, i - lo + 1)` where `lo` was recorded at count 1. -/
def fcb_go : ℕ → ℕ → ℕ → List Char → List (ℕ × ℕ)
  | _, _, _, [] => []
  | i, cnt, lo, c :: rest =>
    if c ≠ '-' then
      if cnt + 1 = 1 then fcb_go (i + 1) 1 i rest
      else if cnt + 1 = 3 then (lo, i - lo + 1) :: fcb_go (i + 1) 0 lo rest
      else fcb_go (i + 1) (cnt + 1) lo rest
    else fcb_go (i + 1) cnt lo rest

/-- `find_codon_boundaries` (main_frame.cpp:330-348): offset and length of
each gapped codon. -/
def find_codon_boundaries (seq : List Char) : List (ℕ × ℕ) := fcb_go 0 0 0 seq

/-- `intersect` (main_frame.cpp:357-365): overlap of two
`(offset, length)` intervals, `none` when empty. -/
def intersect (a b : ℕ × ℕ) : Option (ℕ × ℕ) :=
  let lo := max a.1 b.1
  let hi := min (a.1 + a.2) (b.1 + b.2)
  if lo < hi then some (lo, hi - lo) else none

/-- One `Trace` cell of the NW matrix (main_frame.cpp:397-400): the move
char (`'m'`, `'a'`, `'b'`, or the default `0`) and the score, with the
float `-inf` of unmatchable codon pairs modelled as `none`. -/
structure NWTrace where
  mv : Char
  score : Option ℚ

instance : Inhabited NWTrace := ⟨⟨Char.ofNat 0, some 0⟩⟩

/-- Score addition; `-inf` (`none`) absorbs. -/
def oadd : Option ℚ → Option ℚ → Option ℚ
  | some x, some y => some (x + y)
  | some _, none => none
  | none, some _ => none
  | none, none => none

/-- Score minus a (finite) gap penalty. -/
def osub (a : Option ℚ) (g : ℚ) : Option ℚ := a.map (fun x => x - g)

/-- The comparator `a.score < b.score` of the `max_element` call
(main_frame.cpp:418), on `-inf`-extended scores. -/
def olt : Option ℚ → Option ℚ → Bool
  | none, none => false
  | none, some _ => true
  | some _, none => false
  | some x, some y => decide (x < y)

/-- One comparator step: `std::max_element` keeps the current cell unless
the candidate is strictly greater, so ties prefer the earlier option. -/
def trace_better (cur cand : NWTrace) : NWTrace :=
  if olt cur.score cand.score then cand else cur

/-- First maximum of the three options `'m'`, `'a'`, `'b'`
(main_frame.cpp:407-418). -/
def max_el3 (o1 o2 o3 : NWTrace) : NWTrace := trace_better (trace_better o1 o2) o3

/-- The constrained match matrix entry (main_frame.cpp:383-395): `none`
(`-inf`) when the two codons do not overlap in the MSA, otherwise the count
of positions in the overlap where the sequences agree on a non-gap
character. -/
def nw_match (seqa seqb : List Char) (cdnsa cdnsb : List (ℕ × ℕ))
    (i j : ℕ) : Option ℚ :=
  (intersect (cdnsa.getD i (0, 0)) (cdnsb.getD j (0, 0))).map (fun lv =>
    (((List.range' lv.1 lv.2).filter
      (fun k => seqa.getD k '-' = seqb.getD k '-' ∧ seqa.getD k '-' ≠ '-')).length : ℚ))

/-- Row `i ≥ 1` of the NW trace matrix (main_frame.cpp:405-419): the free
end-gap penalties `gapp * (size != index)` and the first-max selection. -/
def nw_row (match_ : ℕ → ℕ → Option ℚ) (na nb : ℕ) (gapp : ℚ) (i : ℕ)
    (prev : List NWTrace) : List NWTrace :=
  (List.range' 1 nb).foldl (fun cur j =>
    let m : NWTrace := ⟨'m', oadd (prev.getD (j - 1) default).score (match_ (i - 1) (j - 1))⟩
    let a : NWTrace := ⟨'a', osub (cur.getD (j - 1) default).score (if nb ≠ j then gapp else 0)⟩
    let b : NWTrace := ⟨'b', osub (prev.getD j default).score (if na ≠ i then gapp else 0)⟩
    cur ++ [max_el3 m a b]) [⟨'b', some 0⟩]

/-- The full `(na + 1) × (nb + 1)` NW trace matrix (main_frame.cpp:402-419):
row 0 is the `'a'` border with score 0, column 0 the `'b'` border, cell
`(0,0)` keeps the default move 0. -/
def nw_matrix (match_ : ℕ → ℕ → Option ℚ) (na nb : ℕ) (gapp : ℚ) :
    List (List NWTrace) :=
  (List.range' 1 na).foldl
    (fun rows i => rows ++ [nw_row match_ na nb gapp i (rows.getD (i - 1) [])])
    [⟨Char.ofNat 0, some 0⟩ :: (List.range' 1 nb).map (fun _ => ⟨'a', some 0⟩)]

/-- The first residue of the translation of the codon slice
`[offset, offset+len)` (the `translate(...)​[0]` of the traceback);
`none` when the translation throws or yields no residue. -/
def residue (seq : List Char) (iv : ℕ × ℕ) : Option Char :=
  (translate ((seq.drop iv.1).take iv.2)).bind List.head?

/-- The traceback loop of `contrained_nw_align` (main_frame.cpp:424-449),
with fuel (the callers pass more than `i + j`, which bounds the walk); the
C++ builds both strings reversed and flips them at the end, here each step
appends after the recursive call. -/
def traceback (seqa seqb : List Char) (cdnsa cdnsb : List (ℕ × ℕ))
    (tr : List (List NWTrace)) : ℕ → ℕ → ℕ → Option (List Char × List Char)
  | 0, _, _ => some ([], [])
  | fuel + 1, i, j =>
    let t := (tr.getD i []).getD j default
    if t.mv = 'm' then
      match residue seqa (cdnsa.getD (i - 1) (0, 0)),
          residue seqb (cdnsb.getD (j - 1) (0, 0)),
          traceback seqa seqb cdnsa cdnsb tr fuel (i - 1) (j - 1) with
      | some ra, some rb, some p => some (p.1 ++ [ra], p.2 ++ [rb])
      | _, _, _ => none
    else if t.mv = 'a' then
      match residue seqb (cdnsb.getD (j - 1) (0, 0)),
          traceback seqa seqb cdnsa cdnsb tr fuel i (j - 1) with
      | some rb, some p => some (p.1 ++ ['-'], p.2 ++ [rb])
      | _, _ => none
    else if t.mv = 'b' then
      match residue seqa (cdnsa.getD (i - 1) (0, 0)),
          traceback seqa seqb cdnsa cdnsb tr fuel (i - 1) j with
      | some ra, some p => some (p.1 ++ [ra], p.2 ++ ['-'])
      | _, _ => none
    else some ([], [])

/-- `contrained_nw_align` (main_frame.cpp:377-451): codon boundaries,
constrained match matrix, NW fill, and traceback from the bottom-right
corner.  A translation failure during traceback (the C++ exception)
surfaces as `none`. -/
def contrained_nw_align (seqa seqb : List Char) (gapp : ℚ) :
    Option (List Char × List Char) :=
  let cdnsa := find_codon_boundaries seqa
  let cdnsb := find_codon_boundaries seqb
  traceback seqa seqb cdnsa cdnsb
    (nw_matrix (nw_match seqa seqb cdnsa cdnsb) cdnsa.length cdnsb.length gapp)
    (cdnsa.length + cdnsb.length + 1) cdnsa.length cdnsb.length

/-- One mutation token of `tally_alignment_mutations`
(main_frame.cpp:461-466): kind (`'+'` insertion, `'-'` deletion, 0
substitution), ungapped top position, and the two residue runs. -/
structure Mut where
  type : Char
  pos : ℕ
  top : List Char
  btm : List Char

/-- The first pass of `tally_alignment_mutations` (main_frame.cpp:469-479):
emit one token per differing column, tracking the ungapped top position. -/
def tally_muts (top btm : List Char) : List Mut :=
  ((List.range top.length).foldl (fun (st : List Mut × ℕ) i =>
    let t := top.getD i '-'
    let b := btm.getD i '-'
    let muts := if t = '-' ∧ b ≠ '-' then st.1 ++ [⟨'+', st.2, [], [b]⟩]
      else if t ≠ '-' ∧ b = '-' then st.1 ++ [⟨'-', st.2, [t], []⟩]
      else if t ≠ b then st.1 ++ [⟨Char.ofNat 0, st.2, [t], [b]⟩]
      else st.1
    (muts, st.2 + if t ≠ '-' then 1 else 0)) ([], 0)).1

/-- The consolidation loop (main_frame.cpp:481-497), walking the token list
from the back with one pop per iteration (the fuel is the exact iteration
count): adjacent same-kind tokens at consecutive positions merge. -/
def consolidate_go : ℕ → List Mut → List Mut → List Mut
  | 0, _, acc => acc
  | _ + 1, [], acc => acc
  | _ + 1, [b], acc => acc ++ [b]
  | f + 1, b :: a :: rest, acc =>
    if a.type ≠ Char.ofNat 0 ∧ a.type = b.type ∧ a.pos + 1 = b.pos then
      consolidate_go f (⟨a.type, a.pos, a.top ++ b.top, a.btm ++ b.btm⟩ :: rest) acc
    else consolidate_go f (a :: rest) (acc ++ [b])

/-- Token consolidation: process from the back, reverse at the end
(main_frame.cpp:481-499). -/
def consolidate (muts : List Mut) : List Mut :=
  (consolidate_go muts.length muts.reverse []).reverse

/-- Rendering of one token (main_frame.cpp:502-509). -/
def render_mut (m : Mut) : List Char :=
  if m.type = '+' then '+' :: (Nat.toDigits 10 (m.pos + 1) ++ m.btm)
  else if m.type = '-' then '-' :: (Nat.toDigits 10 (m.pos + 1) ++ m.top)
  else m.top ++ Nat.toDigits 10 (m.pos + 1) ++ m.btm

/-- `tally_alignment_mutations` (main_frame.cpp:456-511): token list,
consolidation, comma-joined rendering with the trailing comma dropped. -/
def tally_alignment_mutations (top btm : List Char) : List Char :=
  ((consolidate (tally_muts top btm)).foldl
    (fun acc m => acc ++ render_mut m ++ [',']) []).dropLast

end Dandelions

namespace Dandelions

/-! ## Theorems -/

theorem hamming_distance_self (a : List Char) : hamming_distance a a = 0 := by
  simp only [hamming_distance]
  induction a with
  | nil => rfl
  | cons x t ih =>
    rw [List.zip_cons_cons, List.countP_cons, ih]
    simp

theorem hamming_distance_comm (a b : List Char) :
    hamming_distance a b = hamming_distance b a := by
  induction a generalizing b with
  | nil => cases b <;> rfl
  | cons x t ih =>
    cases b with
    | nil => rfl
    | cons y u =>
      simp only [hamming_distance, List.zip_cons_cons, List.countP_cons] at *
      rw [ih u]
      by_cases h : x = y
      · simp [h, ne_comm]
      · simp [h, Ne.symm h, ne_comm]

theorem hamming_distance_le (a b : List Char) :
    hamming_distance a b ≤ a.length := by
  calc hamming_distance a b ≤ (a.zip b).length := List.countP_le_length _
  _ ≤ a.length := by rw [List.length_zip]; exact min_le_left _ _

theorem hamming_distance_replicate (n : ℕ) (a b : Char) (h : a ≠ b) :
    hamming_distance (List.replicate n a) (List.replicate n b) = n := by
  simp only [hamming_distance, List.zip_replicate, min_self]
  induction n with
  | zero => rfl
  | succ m ih =>
    rw [List.replicate_succ, List.countP_cons, ih]
    simp [h]

/-- Unfolding lemma for the entries of `make_distance_matrix`. -/
theorem entry_eq (seqs : List (List Char)) (i j : ℕ) :
    (make_distance_matrix seqs).entry i j
      = ((hamming_distance (seqs.getD i []) (seqs.getD j []) % U32) * 2 ^ 16) % U32
          ||| root_distance seqs j := rfl

/-- Unfolding lemma for `root_distance`. -/
theorem root_distance_eq (seqs : List (List Char)) (j : ℕ) :
    root_distance seqs j
      = hamming_distance (seqs.getD 0 []) (seqs.getD j []) % U32 := rfl

/-- Bit-packing helper: when the low part fits in 16 bits, the OR in
`make_distance_matrix` is plain addition. -/
theorem pack_or_eq_add (h rd : ℕ) (hrd : rd < 2 ^ 16) :
    h * 2 ^ 16 ||| rd = 2 ^ 16 * h + rd := by
  rw [Nat.mul_comm h (2 ^ 16)]
  exact (Nat.mul_add_lt_is_or hrd h).symm

/-- `C4` (amended): `make_distance_matrix` performs no length validation:
for every input, including one with sequences of differing lengths, it
returns an `N`×`N` table of `uint32_t` values — there is no error path in
the function (spec §7 delegates length validation to the parsing
collaborator). -/
theorem make_distance_matrix_total (seqs : List (List Char)) (i j : ℕ) :
    (make_distance_matrix seqs).rows = seqs.length ∧
    (make_distance_matrix seqs).cols = seqs.length ∧
    (make_distance_matrix seqs).entry i j < U32 := by
  refine ⟨rfl, rfl, ?_⟩
  have h32 : (0:ℕ) < U32 := by norm_num [U32]
  have h1 : (hamming_distance (seqs.getD i []) (seqs.getD j []) % U32) * 2 ^ 16 % U32
      < U32 := Nat.mod_lt _ h32
  have h2 : root_distance seqs j < U32 := Nat.mod_lt _ h32
  show _ ||| _ < U32
  exact Nat.or_lt_two_pow h1 h2

/-- `C4` (counterexample): on the two sequences "AC" and "A", whose lengths
differ, `make_distance_matrix` raises nothing and returns an ordinary 2×2
distance table (here the all-zero table, since the compared prefixes agree);
the claim said it fails with a data error and returns no table. -/
theorem make_distance_matrix_counterexample :
    (['A', 'C'] : List Char).length ≠ (['A'] : List Char).length ∧
    (make_distance_matrix [['A', 'C'], ['A']]).rows = 2 ∧
    (make_distance_matrix [['A', 'C'], ['A']]).cols = 2 ∧
    (make_distance_matrix [['A', 'C'], ['A']]).entry 0 0 = 0 ∧
    (make_distance_matrix [['A', 'C'], ['A']]).entry 0 1 = 0 ∧
    (make_distance_matrix [['A', 'C'], ['A']]).entry 1 0 = 0 ∧
    (make_distance_matrix [['A', 'C'], ['A']]).entry 1 1 = 0 := by
  decide

/-- `C6` (amended): when every sequence is shorter than `2^16` characters
(so that the Hamming distances fit their 16-bit field), entry `(i, j)` of
the distance table packs `hamming(i, j)` in the high 16 bits and
`hamming(j, 0)` in the low 16 bits, and the table is asymmetric at `(i, j)`
whenever the root distances of `i` and `j` differ. -/
theorem make_distance_matrix_packs (seqs : List (List Char)) (L i j : ℕ)
    (hlen : ∀ s ∈ seqs, s.length = L) (hL : L < 2 ^ 16)
    (hi : i < seqs.length) (hj : j < seqs.length) :
    (make_distance_matrix seqs).entry i j / 2 ^ 16
        = hamming_distance (seqs.getD i []) (seqs.getD j []) ∧
    (make_distance_matrix seqs).entry i j % 2 ^ 16
        = hamming_distance (seqs.getD j []) (seqs.getD 0 []) ∧
    (hamming_distance (seqs.getD i []) (seqs.getD 0 [])
        ≠ hamming_distance (seqs.getD j []) (seqs.getD 0 [])
      → (make_distance_matrix seqs).entry i j
          ≠ (make_distance_matrix seqs).entry j i) := by
  have hnil : 0 < seqs.length := Nat.lt_of_le_of_lt (Nat.zero_le _) hi
  have hmem : ∀ k, k < seqs.length → (seqs.getD k []).length = L := by
    intro k hk
    rw [List.getD_eq_getElem seqs [] hk]
    exact hlen _ (List.getElem_mem hk)
  have hham : ∀ a b, a < seqs.length → b < seqs.length →
      hamming_distance (seqs.getD a []) (seqs.getD b []) < 2 ^ 16 := by
    intro a b ha _
    exact Nat.lt_of_le_of_lt (Nat.le_trans (hamming_distance_le _ _)
      (Nat.le_of_eq (hmem a ha))) hL
  have hU : ∀ x : ℕ, x < 2 ^ 16 → x % U32 = x := by
    intro x hx
    exact Nat.mod_eq_of_lt (Nat.lt_trans hx (by norm_num [U32]))
  have hentry : ∀ a b, a < seqs.length → b < seqs.length →
      (make_distance_matrix seqs).entry a b
        = 2 ^ 16 * hamming_distance (seqs.getD a []) (seqs.getD b [])
            + hamming_distance (seqs.getD 0 []) (seqs.getD b []) := by
    intro a b ha hb
    show ((hamming_distance _ _ % U32) * 2 ^ 16) % U32 ||| root_distance seqs b = _
    have hlt : hamming_distance (seqs.getD a []) (seqs.getD b []) * 2 ^ 16 < U32 := by
      have h1 := hham a b ha hb
      have : U32 = 2 ^ 16 * 2 ^ 16 := by norm_num [U32]
      rw [this]
      exact Nat.mul_lt_mul_of_lt_of_le h1 (Nat.le_refl _) (by norm_num)
    rw [root_distance, hU _ (hham a b ha hb), hU _ (hham 0 b hnil hb),
      Nat.mod_eq_of_lt hlt]
    exact pack_or_eq_add _ _ (hham 0 b hnil hb)
  have hrd0j : hamming_distance (seqs.getD 0 []) (seqs.getD j [])
      = hamming_distance (seqs.getD j []) (seqs.getD 0 []) :=
    hamming_distance_comm _ _
  refine ⟨?_, ?_, ?_⟩
  · rw [hentry i j hi hj, Nat.mul_add_div (by norm_num : (0:ℕ) < 2 ^ 16),
      Nat.div_eq_of_lt (hham 0 j hnil hj), Nat.add_zero]
  · rw [hentry i j hi hj, Nat.mul_add_mod, Nat.mod_eq_of_lt (hham 0 j hnil hj), hrd0j]
  · intro hne
    rw [hentry i j hi hj, hentry j i hj hi,
      hamming_distance_comm (seqs.getD j []) (seqs.getD i [])]
    intro heq
    have h1 := hham 0 i hnil hi
    have h2 := hham 0 j hnil hj
    have : hamming_distance (seqs.getD 0 []) (seqs.getD j [])
        = hamming_distance (seqs.getD 0 []) (seqs.getD i []) := by omega
    exact hne (by rw [hamming_distance_comm (seqs.getD i []),
      hamming_distance_comm (seqs.getD j [])] at *; omega)

/-- `C6` (witness): the packing property applied to the concrete pair
"AC", "AA" at entry (1, 0). -/
theorem make_distance_matrix_packs_witness :
    ((make_distance_matrix [['A', 'C'], ['A', 'A']]).entry 1 0 / 2 ^ 16
        = hamming_distance ([['A', 'C'], ['A', 'A']].getD 1 [])
            ([['A', 'C'], ['A', 'A']].getD 0 []) ∧
      (make_distance_matrix [['A', 'C'], ['A', 'A']]).entry 1 0 % 2 ^ 16
        = hamming_distance ([['A', 'C'], ['A', 'A']].getD 0 [])
            ([['A', 'C'], ['A', 'A']].getD 0 []) ∧
      (hamming_distance ([['A', 'C'], ['A', 'A']].getD 1 [])
          ([['A', 'C'], ['A', 'A']].getD 0 [])
          ≠ hamming_distance ([['A', 'C'], ['A', 'A']].getD 0 [])
              ([['A', 'C'], ['A', 'A']].getD 0 [])
        → (make_distance_matrix [['A', 'C'], ['A', 'A']]).entry 1 0
            ≠ (make_distance_matrix [['A', 'C'], ['A', 'A']]).entry 0 1)) :=
  make_distance_matrix_packs [['A', 'C'], ['A', 'A']] 2 1 0
    (by decide) (by norm_num) (by norm_num) (by norm_num)

/-- Overflow helper for the `C6` counterexample: on a root with a child at
Hamming distance exactly `2^16`, the 16-bit left shift wraps the `uint32_t`
entry (1, 0) to zero, so its high half no longer holds the distance. -/
theorem entry_overflow (s0 s1 : List Char) (h10 : hamming_distance s1 s0 = 65536)
    (h00 : hamming_distance s0 s0 = 0) :
    (make_distance_matrix [s0, s1]).entry 1 0 / 2 ^ 16 = 0 := by
  rw [entry_eq, root_distance_eq, List.getD_cons_succ, List.getD_cons_zero,
    List.getD_cons_zero, h10, h00]
  norm_num [U32]

/-- `C6` (counterexample): for two 65536-character sequences the packed
`uint32_t` overflows: entry (1, 0) is `(65536 << 16) | 0 = 0 (mod 2^32)`,
so its high 16 bits are 0, not the Hamming distance 65536 the claim
promises for every list of equal-length sequences. -/
theorem make_distance_matrix_counterexample_overflow :
    (make_distance_matrix
        [List.replicate 65536 'A', List.replicate 65536 'C']).entry 1 0 / 2 ^ 16
      ≠ hamming_distance (List.replicate 65536 'C') (List.replicate 65536 'A') := by
  have h1 := entry_overflow (List.replicate 65536 'A') (List.replicate 65536 'C')
    (hamming_distance_replicate _ _ _ (by decide)) (hamming_distance_self _)
  have h2 := hamming_distance_replicate 65536 'C' 'A' (by decide)
  rw [h1, h2]
  norm_num

/-- `C3` (code bug): feeding the gapped child sequence "C-" under parent
"CC" does not raise the documented domain error (the `npos` guard is dead:
the zero-initialized lookup table maps '-' to 0, the slot of 'A').  The gap
is silently tallied as a C→A substitution: the returned column-normalized
matrix has entry (row 'A', col 'C') `= 1/2`. -/
theorem infer_markov_model_counts_gap :
    exceptApply (infer_markov_model [['C', 'C'], ['C', '-']] [⟨0, 1, 0, 1⟩]) 1
        = some (1 / 2) ∧
    exceptApply (infer_markov_model [['C', 'C'], ['C', '-']] [⟨0, 1, 0, 1⟩]) 5
        = some (1 / 2) ∧
    exceptApply (infer_markov_model [['C', 'C'], ['C', '-']] [⟨0, 1, 0, 1⟩]) 0
        = some 1 ∧
    exceptApply (infer_markov_model [['C', 'C'], ['C', '-']] [⟨0, 1, 0, 1⟩]) 9
        = some 0 ∧
    exceptApply (infer_markov_model [['C', 'C'], ['C', '-']] [⟨0, 1, 0, 1⟩]) 13
        = some 0 := by
  refine ⟨?_, ?_, ?_, ?_, ?_⟩ <;>
    (simp +decide [infer_markov_model, markov_counts, markov_normalize, exceptApply,
      markov_lut, npos, List.foldlM, List.range_succ, Bind.bind, Except.bind,
      Pure.pure, Except.pure]
     try norm_num)

/-- `C2` (code bug): with 3 nodes and 2 workers the ranges handed to the
workers are `[0, 1)` and `[1, 2)` — the guard `i == ptrs_.size() - 1`
compares the worker index with the node count, so the last worker's range
ends at `(i+1)*chunk` instead of the pair count, and the pair with linear
index 2 (nodes 2 and 1) is accumulated by no worker, refuting the claimed
partition of `[0, n(n-1)/2)`. -/
theorem simulate_step_worker_ranges_drop_pair :
    n_pairs 3 = 3 ∧
    worker_lo 3 2 0 = 0 ∧ worker_hi 3 2 0 = 1 ∧
    worker_lo 3 2 1 = 1 ∧ worker_hi 3 2 1 = 2 ∧
    ¬(worker_lo 3 2 0 ≤ 2 ∧ 2 < worker_hi 3 2 0) ∧
    ¬(worker_lo 3 2 1 ≤ 2 ∧ 2 < worker_hi 3 2 1) := by
  decide

/-! ### Prim-loop machinery for the consensus claims -/

theorem relax_c (seqs : List (List Char)) (dism : Mtx) (last : ℕ) (j : Join) :
    (relax seqs dism last j).c = j.c := by
  simp only [relax]
  split <;> rfl

theorem relax_p (seqs : List (List Char)) (dism : Mtx) (last : ℕ) (j : Join) :
    (relax seqs dism last j).p = last ∨ (relax seqs dism last j).p = j.p := by
  simp only [relax]
  split
  · exact Or.inl rfl
  · exact Or.inr rfl

theorem map_relax_cs (seqs : List (List Char)) (dism : Mtx) (last : ℕ)
    (l : List Join) :
    (l.map (relax seqs dism last)).map (fun j => j.c) = l.map (fun j => j.c) := by
  rw [List.map_map]
  exact List.map_congr_left (fun j _ => relax_c seqs dism last j)

theorem swap_head_perm (t : List Join) (k : ℕ) (h : Join) (hk : k < t.length) :
    List.Perm (t.getD k default :: t.set k h) (h :: t) := by
  induction t generalizing k with
  | nil => simp at hk
  | cons x u ih =>
    cases k with
    | zero =>
      simpa using List.Perm.swap h x u
    | succ k2 =>
      have h1 := ih k2 (by simpa using hk)
      rw [List.set_cons_succ, List.getD_cons_succ]
      have s1 : List.Perm (u.getD k2 default :: x :: u.set k2 h)
          (x :: u.getD k2 default :: u.set k2 h) := List.Perm.swap x _ _
      have s2 : List.Perm (x :: u.getD k2 default :: u.set k2 h) (x :: h :: u) :=
        h1.cons x
      have s3 : List.Perm (x :: h :: u) (h :: x :: u) := List.Perm.swap h x u
      exact (s1.trans s2).trans s3

theorem select_perm (l : List Join) (k : ℕ) (hk : k < l.length) :
    List.Perm (l.getD k default :: (l.set k (l.headD default)).tail) l := by
  cases l with
  | nil => simp at hk
  | cons h t =>
    cases k with
    | zero =>
      simp only [List.getD_cons_zero, List.headD_cons, List.set_cons_zero,
        List.tail_cons]
      exact List.Perm.refl _
    | succ k2 =>
      have := swap_head_perm t k2 h (by simpa using hk)
      simpa using this

theorem argmin_d_lt_length (l : List Join) (hl : l ≠ []) :
    argmin_d l < l.length := by
  induction l with
  | nil => exact absurd rfl hl
  | cons j t ih =>
    cases t with
    | nil => simp [argmin_d]
    | cons y u =>
      simp only [argmin_d]
      split
      · have := ih (by simp)
        simpa using Nat.succ_lt_succ this
      · simp

theorem argmin_d_min (l : List Join) : ∀ j ∈ l,
    (l.getD (argmin_d l) default).d ≤ j.d := by
  induction l with
  | nil => intro j hj; simp at hj
  | cons x t ih =>
    cases t with
    | nil =>
      intro j hj
      rcases List.mem_singleton.mp hj with rfl
      simp [argmin_d]
    | cons y u =>
      intro j hj
      simp only [argmin_d]
      split
      · rename_i hlt
        rcases List.mem_cons.mp hj with rfl | hmem
        · simp only [List.getD_cons_succ]
          exact Nat.le_of_lt hlt
        · simp only [List.getD_cons_succ]
          exact ih j hmem
      · rename_i hge
        rcases List.mem_cons.mp hj with rfl | hmem
        · simp
        · simp only [List.getD_cons_zero]
          exact Nat.le_trans (Nat.le_of_not_lt hge) (ih j hmem)

theorem getD_mem (l : List Join) (k : ℕ) (hk : k < l.length) :
    l.getD k default ∈ l := by
  rw [List.getD_eq_getElem l default hk]
  exact List.getElem_mem hk

theorem goodFrom_mono (A B : List ℕ) (hAB : ∀ x ∈ A, x ∈ B) :
    ∀ js : List Join, goodFrom A js → goodFrom B js := by
  intro js
  induction js generalizing A B with
  | nil => intro; trivial
  | cons j t ih =>
    intro hg
    exact ⟨hAB _ hg.1, ih (j.c :: A) (j.c :: B)
      (by intro x hx; rcases List.mem_cons.mp hx with rfl | hx
          · exact List.mem_cons_self _ _
          · exact List.mem_cons_of_mem _ (hAB _ hx)) hg.2⟩

theorem prim_loop_goodFrom (seqs : List (List Char)) (dism : Mtx) :
    ∀ (n : ℕ) (A : List ℕ) (last : Join) (rest : List Join), rest.length = n →
      last.c ∈ A → (∀ j ∈ rest, j.p ∈ A) →
      goodFrom A (prim_loop seqs dism last rest) := by
  intro n
  induction n with
  | zero =>
    intro A last rest hlen _ _
    have h0 : rest = [] := List.length_eq_zero.mp hlen
    subst h0
    rw [prim_loop]
    trivial
  | succ m ih =>
    intro A last rest hlen hlast hrest
    cases rest with
    | nil => simp at hlen
    | cons h t =>
      rw [prim_loop]
      have hne : (h :: t).map (relax seqs dism last.c) ≠ [] := by simp
      have hk_lt : argmin_d ((h :: t).map (relax seqs dism last.c))
          < ((h :: t).map (relax seqs dism last.c)).length :=
        argmin_d_lt_length _ hne
      have hchosen_mem := getD_mem _ _ hk_lt
      have hperm := select_perm ((h :: t).map (relax seqs dism last.c)) _ hk_lt
      have hrest1p : ∀ j ∈ (h :: t).map (relax seqs dism last.c), j.p ∈ A := by
        intro j hj
        obtain ⟨j0, hj0, rfl⟩ := List.mem_map.mp hj
        rcases relax_p seqs dism last.c j0 with hp | hp <;> rw [hp]
        · exact hlast
        · exact hrest j0 hj0
      have hlen2 : ((((h :: t).map (relax seqs dism last.c)).set
          (argmin_d ((h :: t).map (relax seqs dism last.c)))
          (((h :: t).map (relax seqs dism last.c)).headD default)).tail).length = m := by
        simp only [List.length_tail, List.length_set, List.length_map,
          List.length_cons]
        simpa using Nat.succ_injective hlen
      refine ⟨hrest1p _ hchosen_mem, ?_⟩
      exact ih _ _ _ hlen2 (List.mem_cons_self _ _)
        (fun j hj => List.mem_cons_of_mem _
          (hrest1p j (hperm.mem_iff.mp (List.mem_cons_of_mem _ hj))))

theorem prim_loop_cs_perm (seqs : List (List Char)) (dism : Mtx) :
    ∀ (n : ℕ) (last : Join) (rest : List Join), rest.length = n →
      List.Perm ((prim_loop seqs dism last rest).map (fun j => j.c))
        (rest.map (fun j => j.c)) := by
  intro n
  induction n with
  | zero =>
    intro last rest hlen
    have h0 : rest = [] := List.length_eq_zero.mp hlen
    subst h0
    rw [prim_loop]
  | succ m ih =>
    intro last rest hlen
    cases rest with
    | nil => simp at hlen
    | cons h t =>
      rw [prim_loop]
      have hne : (h :: t).map (relax seqs dism last.c) ≠ [] := by simp
      have hk_lt : argmin_d ((h :: t).map (relax seqs dism last.c))
          < ((h :: t).map (relax seqs dism last.c)).length :=
        argmin_d_lt_length _ hne
      have hperm := select_perm ((h :: t).map (relax seqs dism last.c)) _ hk_lt
      have hlen2 : ((((h :: t).map (relax seqs dism last.c)).set
          (argmin_d ((h :: t).map (relax seqs dism last.c)))
          (((h :: t).map (relax seqs dism last.c)).headD default)).tail).length = m := by
        simp only [List.length_tail, List.length_set, List.length_map,
          List.length_cons]
        simpa using Nat.succ_injective hlen
      have hrec := ih (((h :: t).map (relax seqs dism last.c)).getD
        (argmin_d ((h :: t).map (relax seqs dism last.c))) default) _ hlen2
      rw [List.map_cons]
      have step1 := hrec.cons ((((h :: t).map (relax seqs dism last.c)).getD
        (argmin_d ((h :: t).map (relax seqs dism last.c))) default).c)
      have step2 := hperm.map (fun j => j.c)
      rw [List.map_cons] at step2
      rw [map_relax_cs] at step2
      exact step1.trans step2

theorem goodFrom_take (A : List ℕ) (js : List Join) (hg : goodFrom A js) :
    ∀ t, t < js.length →
      (js.getD t default).p ∈ A ∨
        (js.getD t default).p ∈ (js.take t).map (fun j => j.c) := by
  induction js generalizing A with
  | nil => intro t ht; simp at ht
  | cons j u ih =>
    intro t ht
    cases t with
    | zero => exact Or.inl hg.1
    | succ s =>
      rw [List.getD_cons_succ, List.take_succ_cons, List.map_cons]
      rcases ih (j.c :: A) hg.2 s (by simpa using ht) with hmem | hmem
      · rcases List.mem_cons.mp hmem with heq | hA
        · exact Or.inr (by rw [heq]; exact List.mem_cons_self _ _)
        · exact Or.inl hA
      · exact Or.inr (List.mem_cons_of_mem _ hmem)

theorem indexOf_lt_of_mem_take (l : List ℕ) (x t : ℕ) (hx : x ∈ l.take t) :
    l.indexOf x < t := by
  induction l generalizing t with
  | nil => simp at hx
  | cons a u ih =>
    cases t with
    | zero => simp at hx
    | succ s =>
      rw [List.take_succ_cons] at hx
      by_cases hax : a = x
      · rw [List.indexOf_cons_eq _ hax]
        exact Nat.succ_pos _
      · rcases List.mem_cons.mp hx with rfl | hx2
        · exact absurd rfl hax
        · rw [List.indexOf_cons_ne _ hax]
          exact Nat.succ_lt_succ (ih s hx2)

theorem tree_of_joins_unique (js : List Join)
    (hnd : (js.map (fun j => j.c)).Nodup) (j : Join) (hj : j ∈ js) :
    tree_of_joins js j.c = j.p := by
  unfold tree_of_joins
  have hmem : j ∈ js.reverse := List.mem_reverse.mpr hj
  have hsome : (js.reverse.find? (fun jj => jj.c = j.c)).isSome := by
    rw [List.find?_isSome]
    exact ⟨j, hmem, by simp⟩
  obtain ⟨j2, hfind⟩ := Option.isSome_iff_exists.mp hsome
  have hc : j2.c = j.c := by simpa using List.find?_some hfind
  have hj2 : j2 ∈ js := List.mem_reverse.mp (List.mem_of_find?_eq_some hfind)
  have heq : j2 = j :=
    List.inj_on_of_nodup_map hnd hj2 hj hc
  rw [hfind, heq]
  simp

/-- The structural fact about a sampled `build_mst` run (any sequences, any
distance matrix, any shuffle σ): the attached vertices are exactly
`0 :: σ`, the root's parent is 0, and every other vertex's parent was
attached strictly earlier (smaller `indexOf` in the attachment order). -/
theorem build_mst_structure (seqs : List (List Char)) (dism : Mtx)
    (σ : List ℕ) (hnd : (0 :: σ : List ℕ).Nodup) :
    List.Perm ((build_mst_joins seqs dism (0 :: σ)).map (fun j => j.c))
        (0 :: σ) ∧
    tree_of_joins (build_mst_joins seqs dism (0 :: σ)) 0 = 0 ∧
    (∀ x ∈ (build_mst_joins seqs dism (0 :: σ)).map (fun j => j.c), x ≠ 0 →
      tree_of_joins (build_mst_joins seqs dism (0 :: σ)) x
          ∈ (build_mst_joins seqs dism (0 :: σ)).map (fun j => j.c) ∧
      ((build_mst_joins seqs dism (0 :: σ)).map (fun j => j.c)).indexOf
          (tree_of_joins (build_mst_joins seqs dism (0 :: σ)) x)
        < ((build_mst_joins seqs dism (0 :: σ)).map (fun j => j.c)).indexOf x) := by
  have hjs : build_mst_joins seqs dism (0 :: σ)
      = (⟨0, 0, MAX_D⟩ : Join) :: prim_loop seqs dism ⟨0, 0, MAX_D⟩
          (σ.map (fun c => (⟨0, c, MAX_D⟩ : Join))) := by
    rw [build_mst_joins]
    simp
  set out := prim_loop seqs dism (⟨0, 0, MAX_D⟩ : Join)
      (σ.map (fun c => (⟨0, c, MAX_D⟩ : Join))) with hout
  -- the attachment order's vertex list
  have hperm : List.Perm ((build_mst_joins seqs dism (0 :: σ)).map (fun j => j.c))
      (0 :: σ) := by
    rw [hjs, List.map_cons]
    have h1 := prim_loop_cs_perm seqs dism (σ.map (fun c => (⟨0, c, MAX_D⟩ : Join))).length
      ⟨0, 0, MAX_D⟩ (σ.map (fun c => (⟨0, c, MAX_D⟩ : Join))) rfl
    have h2 : (σ.map (fun c => (⟨0, c, MAX_D⟩ : Join))).map (fun j => j.c) = σ := by
      rw [List.map_map]
      have hcongr : ∀ c ∈ σ, ((fun j => j.c) ∘ (fun c => (⟨0, c, MAX_D⟩ : Join))) c
          = id c := fun _ _ => rfl
      rw [List.map_congr_left hcongr, List.map_id]
    rw [h2] at h1
    exact h1.cons 0
  have hnd2 : ((build_mst_joins seqs dism (0 :: σ)).map (fun j => j.c)).Nodup :=
    hperm.nodup_iff.mpr hnd
  have hgood : goodFrom [0] (build_mst_joins seqs dism (0 :: σ)) := by
    rw [hjs]
    refine ⟨List.mem_singleton_self 0, ?_⟩
    have := prim_loop_goodFrom seqs dism (σ.map (fun c => (⟨0, c, MAX_D⟩ : Join))).length
      [0] ⟨0, 0, MAX_D⟩ (σ.map (fun c => (⟨0, c, MAX_D⟩ : Join))) rfl
      (List.mem_singleton_self 0)
      (by intro j hj
          obtain ⟨c0, _, rfl⟩ := List.mem_map.mp hj
          exact List.mem_singleton_self 0)
    exact goodFrom_mono [0] [0, 0] (by intro x hx; simpa using (by simpa using hx)) _ this
  have hzero : tree_of_joins (build_mst_joins seqs dism (0 :: σ)) 0 = 0 := by
    have hmem0 : (⟨0, 0, MAX_D⟩ : Join) ∈ build_mst_joins seqs dism (0 :: σ) := by
      rw [hjs]; exact List.mem_cons_self _ _
    exact tree_of_joins_unique _ hnd2 ⟨0, 0, MAX_D⟩ hmem0
  refine ⟨hperm, hzero, ?_⟩
  intro x hx hx0
  -- locate x's join at its index
  obtain ⟨j, hjmem, hjc⟩ := List.mem_map.mp hx
  have htree : tree_of_joins (build_mst_joins seqs dism (0 :: σ)) x = j.p := by
    rw [← hjc]
    exact tree_of_joins_unique _ hnd2 j hjmem
  -- j sits at index t in the join list
  obtain ⟨t, ht, hjt⟩ := List.getElem_of_mem hjmem
  have hjt2 : (build_mst_joins seqs dism (0 :: σ)).getD t default = j := by
    rw [List.getD_eq_getElem _ _ ht, hjt]
  have ht0 : t ≠ 0 := by
    intro h0
    subst h0
    rw [hjs, List.getD_cons_zero] at hjt2
    apply hx0
    rw [← hjc, ← hjt2]
  -- parent is 0 or an earlier vertex; both have smaller index
  have hidx_x : ((build_mst_joins seqs dism (0 :: σ)).map (fun j => j.c)).indexOf x = t := by
    have htb : t < ((build_mst_joins seqs dism (0 :: σ)).map (fun j => j.c)).length := by
      rw [List.length_map]; exact ht
    have : ((build_mst_joins seqs dism (0 :: σ)).map (fun j => j.c))[t] = x := by
      rw [List.getElem_map, hjt, hjc]
    rw [← this]
    exact List.indexOf_getElem hnd2 t htb
  rcases goodFrom_take [0] _ hgood t ht with hp | hp
  · -- parent is the root 0
    have hp0 : j.p = 0 := by rw [hjt2] at hp; simpa using hp
    have h0mem : (0 : ℕ) ∈ (build_mst_joins seqs dism (0 :: σ)).map (fun j => j.c) :=
      hperm.mem_iff.mpr (List.mem_cons_self _ _)
    constructor
    · rw [htree, hp0]; exact h0mem
    · rw [htree, hp0, hidx_x]
      have hcs : (build_mst_joins seqs dism (0 :: σ)).map (fun j => j.c)
          = 0 :: out.map (fun j => j.c) := by
        rw [hjs, List.map_cons]
      rw [hcs, List.indexOf_cons_self]
      exact Nat.pos_of_ne_zero ht0
  · -- parent is an earlier attached vertex
    rw [hjt2] at hp
    have hpmem_take : j.p ∈ ((build_mst_joins seqs dism (0 :: σ)).map (fun j => j.c)).take t := by
      rw [← List.map_take]
      exact hp
    constructor
    · rw [htree]
      exact List.mem_of_mem_take hpmem_take
    · rw [htree, hidx_x]
      exact indexOf_lt_of_mem_take _ _ _ hpmem_take

theorem MAX_D_pos : 0 < MAX_D := by norm_num [MAX_D, U32]

theorem MAX_D_pred_lt : MAX_D - 1 < MAX_D := Nat.sub_lt MAX_D_pos Nat.one_pos

theorem resolve_spec (tree : ℕ → ℕ) (N : ℕ) (cs : List ℕ) (rk : ℕ → ℕ)
    (hN : 0 < N)
    (hstep : ∀ x ∈ cs, x ≠ 0 → tree x ∈ cs ∧ rk (tree x) < rk x) :
    ∀ fuel p, p ∈ cs → rk p < fuel →
      resolve tree N fuel p ∈ cs ∧ resolve tree N fuel p < N ∧
        rk (resolve tree N fuel p) ≤ rk p := by
  intro fuel
  induction fuel with
  | zero => intro p _ h; exact absurd h (Nat.not_lt_zero _)
  | succ f ih =>
    intro p hp hfuel
    rw [resolve]
    by_cases hpN : p < N
    · rw [if_pos hpN]; exact ⟨hp, hpN, Nat.le_refl _⟩
    · rw [if_neg hpN]
      have hpne : p ≠ 0 := by omega
      obtain ⟨h1, h2⟩ := hstep p hp hpne
      have h3 := ih (tree p) h1 (by omega)
      exact ⟨h3.1, h3.2.1, Nat.le_trans h3.2.2 (Nat.le_of_lt h2)⟩

theorem relax_pct (N : ℕ) (rp : ℕ → ℕ) (pctM : Mtx)
    (hrows : pctM.rows = N) (hcols : pctM.cols = N)
    (hpct : ∀ c p, pctM.entry c p
        = if 1 ≤ c ∧ c < N ∧ p = rp c then MAX_D - 1 else MAX_D)
    (A : List ℕ) (lastc : ℕ) (hlastN : lastc < N) (hlastA : lastc ∉ A)
    (j0 : Join) (hc1 : 1 ≤ j0.c) (hcN : j0.c < N)
    (hbr : (rp j0.c ∈ A ∧ j0.d = MAX_D - 1 ∧ j0.p = rp j0.c)
        ∨ (rp j0.c ∉ A ∧ j0.d = MAX_D ∧ j0.p = 0)) :
    (rp j0.c ∈ (lastc :: A) ∧ (relax [] pctM lastc j0).d = MAX_D - 1
        ∧ (relax [] pctM lastc j0).p = rp j0.c)
      ∨ (rp j0.c ∉ (lastc :: A) ∧ (relax [] pctM lastc j0).d = MAX_D
        ∧ (relax [] pctM lastc j0).p = 0) := by
  have hdist : mst_distance [] pctM j0.c lastc
      = if 1 ≤ j0.c ∧ j0.c < N ∧ lastc = rp j0.c then MAX_D - 1 else MAX_D := by
    rw [mst_distance, if_pos ⟨by rw [hrows]; exact hcN, by rw [hcols]; exact hlastN⟩]
    exact hpct _ _
  have hrelax : relax [] pctM lastc j0
      = if mst_distance [] pctM j0.c lastc < j0.d
        then (⟨lastc, j0.c, mst_distance [] pctM j0.c lastc⟩ : Join) else j0 := rfl
  rcases hbr with ⟨hin, hd, hp⟩ | ⟨hnin, hd, hp⟩
  · have hne : lastc ≠ rp j0.c := fun h => hlastA (h ▸ hin)
    have hd2 : mst_distance [] pctM j0.c lastc = MAX_D := by
      rw [hdist, if_neg]
      intro hcond
      exact hne hcond.2.2
    have hnolt : ¬ mst_distance [] pctM j0.c lastc < j0.d := by
      rw [hd2, hd]
      exact Nat.not_lt.mpr (Nat.le_of_lt MAX_D_pred_lt)
    rw [hrelax, if_neg hnolt]
    exact Or.inl ⟨List.mem_cons_of_mem _ hin, hd, hp⟩
  · by_cases heq : lastc = rp j0.c
    · have hd2 : mst_distance [] pctM j0.c lastc = MAX_D - 1 := by
        rw [hdist, if_pos ⟨hc1, hcN, heq⟩]
      have hlt : mst_distance [] pctM j0.c lastc < j0.d := by
        rw [hd2, hd]; exact MAX_D_pred_lt
      rw [hrelax, if_pos hlt]
      refine Or.inl ⟨?_, by rw [hd2], by rw [← heq]⟩
      rw [← heq]
      exact List.mem_cons_self _ _
    · have hd2 : mst_distance [] pctM j0.c lastc = MAX_D := by
        rw [hdist, if_neg]
        intro hcond
        exact heq hcond.2.2
      have hnolt : ¬ mst_distance [] pctM j0.c lastc < j0.d := by
        rw [hd2, hd]
        exact Nat.lt_irrefl _
      rw [hrelax, if_neg hnolt]
      refine Or.inr ⟨?_, hd, hp⟩
      intro hmem
      rcases List.mem_cons.mp hmem with h | h
      · exact heq h.symm
      · exact hnin h

/-- The final Prim run over the decremented `pct` table attaches every
vertex to its resolved parent: every join emitted by the loop has
`p = rp c`.  The invariant `pct_inv` is maintained through relaxation,
minimum selection and the swap. -/
theorem prim_loop_pct_parents (N : ℕ) (rp rk : ℕ → ℕ) (pctM : Mtx)
    (hrows : pctM.rows = N) (hcols : pctM.cols = N)
    (hpct : ∀ c p, pctM.entry c p
        = if 1 ≤ c ∧ c < N ∧ p = rp c then MAX_D - 1 else MAX_D)
    (hrpN : ∀ c, 1 ≤ c → c < N → rp c < N)
    (hrk : ∀ c, 1 ≤ c → c < N → rk (rp c) < rk c) :
    ∀ (n : ℕ) (A : List ℕ) (last : Join) (rest : List Join), rest.length = n →
      pct_inv N rp A last rest →
      ∀ j ∈ prim_loop [] pctM last rest, j.p = rp j.c := by
  intro n
  induction n with
  | zero =>
    intro A last rest hlen _ j hj
    have h0 : rest = [] := List.length_eq_zero.mp hlen
    subst h0
    rw [prim_loop] at hj
    simp at hj
  | succ m ih =>
    intro A last rest hlen hinv j hj
    obtain ⟨hi0, hlastN, hlastA, hclast, hclosedA, hcover, hic, hid, hnd⟩ := hinv
    cases rest with
    | nil => simp at hlen
    | cons h t =>
    rw [prim_loop] at hj
    set rest1 := (h :: t).map (relax [] pctM last.c) with hrest1
    set k := argmin_d rest1 with hkdef
    set chosen := rest1.getD k default with hchosendef
    set rest2 := (rest1.set k (rest1.headD default)).tail with hrest2
    -- basic facts about the relaxed list
    have hk_lt : k < rest1.length := argmin_d_lt_length rest1 (by simp [hrest1])
    have hchosen_mem : chosen ∈ rest1 := getD_mem _ _ hk_lt
    have hperm : List.Perm (chosen :: rest2) rest1 := select_perm rest1 k hk_lt
    have hcs1 : rest1.map (fun j => j.c) = (h :: t).map (fun j => j.c) := by
      rw [hrest1]; exact map_relax_cs _ _ _ _
    have hnd1 : (rest1.map (fun j => j.c)).Nodup := by rw [hcs1]; exact hnd
    have hA0 : (0 : ℕ) ∈ last.c :: A := by
      rcases hi0 with h0 | h0
      · exact List.mem_cons_of_mem _ h0
      · rw [← h0]; exact List.mem_cons_self _ _
    have hic1 : ∀ j1 ∈ rest1, 1 ≤ j1.c ∧ j1.c < N ∧ j1.c ∉ A ∧ j1.c ≠ last.c := by
      intro j1 hj1
      rw [hrest1] at hj1
      obtain ⟨j0, hj0, rfl⟩ := List.mem_map.mp hj1
      rw [relax_c]
      exact hic j0 hj0
    have hid1 : ∀ j1 ∈ rest1,
        (rp j1.c ∈ last.c :: A ∧ j1.d = MAX_D - 1 ∧ j1.p = rp j1.c)
          ∨ (rp j1.c ∉ last.c :: A ∧ j1.d = MAX_D ∧ j1.p = 0) := by
      intro j1 hj1
      rw [hrest1] at hj1
      obtain ⟨j0, hj0, rfl⟩ := List.mem_map.mp hj1
      obtain ⟨hc1, hcN, _, _⟩ := hic j0 hj0
      have := relax_pct N rp pctM hrows hcols hpct A last.c hlastN hlastA
        j0 hc1 hcN (hid j0 hj0)
      rw [relax_c]
      exact this
    have hcover1 : ∀ x, 1 ≤ x → x < N →
        x ∈ last.c :: A ∨ x ∈ rest1.map (fun j => j.c) := by
      intro x hx1 hxN
      rcases hcover x hx1 hxN with hh | hh | hh
      · exact Or.inl (List.mem_cons_of_mem _ hh)
      · exact Or.inl (hh ▸ List.mem_cons_self _ _)
      · rw [hcs1]; exact Or.inr hh
    -- boundary existence: some remaining join already carries a MAX_D - 1 edge
    have hkey : ∀ r x, rk x = r → x ∈ rest1.map (fun j => j.c) →
        ∃ j1 ∈ rest1, j1.d = MAX_D - 1 := by
      intro r
      induction r using Nat.strong_induction_on with
      | _ r ihr =>
        intro x hrkx hx
        obtain ⟨jx, hjx, hjxc⟩ := List.mem_map.mp hx
        rcases hid1 jx hjx with ⟨_, hdx, _⟩ | ⟨hnin, _, _⟩
        · exact ⟨jx, hjx, hdx⟩
        · obtain ⟨hx1, hxN, _, _⟩ := hic1 jx hjx
          rw [hjxc] at hnin hx1 hxN
          have h1 : 1 ≤ rp x := by
            rcases Nat.eq_zero_or_pos (rp x) with h0 | h0
            · exact absurd (h0 ▸ hA0) hnin
            · exact h0
          have h2 : rp x < N := hrpN x hx1 hxN
          rcases hcover1 (rp x) h1 h2 with hin2 | hin2
          · exact absurd hin2 hnin
          · exact ihr (rk (rp x)) (hrkx ▸ hrk x hx1 hxN) (rp x) rfl hin2
    have hex : ∃ j1 ∈ rest1, j1.d = MAX_D - 1 := by
      have hhead : (relax [] pctM last.c h) ∈ rest1 := by
        rw [hrest1]; exact List.mem_map_of_mem _ (List.mem_cons_self _ _)
      exact hkey (rk (relax [] pctM last.c h).c) (relax [] pctM last.c h).c rfl
        (List.mem_map_of_mem _ hhead)
    -- the chosen join carries distance MAX_D - 1, hence its parent is resolved
    obtain ⟨jb, hjb, hjbd⟩ := hex
    have hle := argmin_d_min rest1 jb hjb
    rw [hjbd] at hle
    have hchA : rp chosen.c ∈ last.c :: A ∧ chosen.d = MAX_D - 1
        ∧ chosen.p = rp chosen.c := by
      rcases hid1 chosen hchosen_mem with hgood | ⟨_, hd, _⟩
      · exact hgood
      · rw [← hchosendef, hd] at hle
        exact absurd hle (Nat.not_le.mpr MAX_D_pred_lt)
    rcases List.mem_cons.mp hj with rfl | hjrec
    · exact hchA.2.2
    · -- recursive call: re-establish the invariant
      have hlen2 : rest2.length = m := by
        rw [hrest2]
        simp only [List.length_tail, List.length_set, hrest1, List.length_map,
          List.length_cons]
        simpa using Nat.succ_injective hlen
      have hndc : (chosen.c :: rest2.map (fun j => j.c)).Nodup := by
        have := (hperm.map (fun j => j.c)).nodup_iff.mpr hnd1
        simpa using this
      have hinrest1 : ∀ j1 ∈ rest2, j1 ∈ rest1 := by
        intro j1 hj1
        exact hperm.mem_iff.mp (List.mem_cons_of_mem _ hj1)
      refine ih (last.c :: A) chosen rest2 hlen2
        ⟨Or.inl hA0, (hic1 chosen hchosen_mem).2.1, ?_, Or.inr hchA.1, ?_, ?_, ?_, ?_, ?_⟩
        j hjrec
      · -- chosen.c ∉ last.c :: A
        obtain ⟨_, _, hnotA, hne⟩ := hic1 chosen hchosen_mem
        intro hmem
        rcases List.mem_cons.mp hmem with hh | hh
        · exact hne hh
        · exact hnotA hh
      · -- closure of last.c :: A
        intro a ha
        rcases List.mem_cons.mp ha with rfl | ha2
        · rcases hclast with h0 | h0
          · exact Or.inl h0
          · exact Or.inr (List.mem_cons_of_mem _ h0)
        · rcases hclosedA a ha2 with h0 | h0
          · exact Or.inl h0
          · exact Or.inr (List.mem_cons_of_mem _ h0)
      · -- cover
        intro x hx1 hxN
        rcases hcover1 x hx1 hxN with hh | hh
        · exact Or.inl hh
        · have hmm : x ∈ (chosen :: rest2).map (fun j => j.c) :=
            (hperm.map (fun j => j.c)).mem_iff.mpr hh
          rw [List.map_cons] at hmm
          rcases List.mem_cons.mp hmm with hh2 | hh2
          · exact Or.inr (Or.inl hh2)
          · exact Or.inr (Or.inr hh2)
      · -- per-join index facts
        intro j1 hj1
        obtain ⟨h1, h2, h3, h4⟩ := hic1 j1 (hinrest1 j1 hj1)
        refine ⟨h1, h2, ?_, ?_⟩
        · intro hmem
          rcases List.mem_cons.mp hmem with hh | hh
          · exact h4 hh
          · exact h3 hh
        · intro heq
          have hmemc : j1.c ∈ rest2.map (fun j => j.c) :=
            List.mem_map_of_mem _ hj1
          rw [heq] at hmemc
          exact (List.nodup_cons.mp hndc).1 hmemc
      · -- distance/parent branches
        intro j1 hj1
        exact hid1 j1 (hinrest1 j1 hj1)
      · -- nodup
        exact (List.nodup_cons.mp hndc).2

/-- The unshuffled `build_mst` over the decremented `pct` table recovers the
resolved-parent map: `tree[c] = rp c` for every non-root vertex. -/
theorem build_mst_pct_tree (N : ℕ) (rp rk : ℕ → ℕ) (pctM : Mtx)
    (hrows : pctM.rows = N) (hcols : pctM.cols = N)
    (hpct : ∀ c p, pctM.entry c p
        = if 1 ≤ c ∧ c < N ∧ p = rp c then MAX_D - 1 else MAX_D)
    (hrpN : ∀ c, 1 ≤ c → c < N → rp c < N)
    (hrk : ∀ c, 1 ≤ c → c < N → rk (rp c) < rk c)
    (c : ℕ) (hc1 : 1 ≤ c) (hcN : c < N) :
    tree_of_joins (build_mst_joins [] pctM (List.range N)) c = rp c := by
  have hNpos : 0 < N := Nat.lt_of_le_of_lt (Nat.zero_le c) hcN
  have hrange : List.range N = 0 :: List.range' 1 (N - 1) := by
    rw [List.range_eq_range']
    conv_lhs => rw [show N = (N - 1) + 1 by omega]
    rw [List.range'_succ]
  have hnd : ((0 : ℕ) :: List.range' 1 (N - 1)).Nodup := by
    rw [List.nodup_cons]
    constructor
    · intro hmem
      have := List.mem_range'_1.mp hmem
      omega
    · exact List.nodup_range' _ _
  have hjs : build_mst_joins [] pctM (0 :: List.range' 1 (N - 1))
      = (⟨0, 0, MAX_D⟩ : Join) :: prim_loop [] pctM ⟨0, 0, MAX_D⟩
          ((List.range' 1 (N - 1)).map (fun c => (⟨0, c, MAX_D⟩ : Join))) := by
    rw [build_mst_joins]
    simp
  -- the initial invariant
  have hinv : pct_inv N rp [] ⟨0, 0, MAX_D⟩
      ((List.range' 1 (N - 1)).map (fun c => (⟨0, c, MAX_D⟩ : Join))) := by
    refine ⟨Or.inr rfl, hNpos, List.not_mem_nil _, Or.inl rfl, ?_, ?_, ?_, ?_, ?_⟩
    · intro a ha; exact absurd ha (List.not_mem_nil _)
    · intro x hx1 hxN
      refine Or.inr (Or.inr ?_)
      have hxmem : x ∈ List.range' 1 (N - 1) := List.mem_range'_1.mpr ⟨hx1, by omega⟩
      rw [List.map_map]
      have : ((fun j => j.c) ∘ (fun c => (⟨0, c, MAX_D⟩ : Join))) = id := rfl
      rw [this, List.map_id]
      exact hxmem
    · intro j hj
      obtain ⟨c0, hc0, rfl⟩ := List.mem_map.mp hj
      have hm := List.mem_range'_1.mp hc0
      refine ⟨hm.1, ?_, List.not_mem_nil _, ?_⟩
      · show c0 < N
        omega
      · show c0 ≠ 0
        omega
    · intro j hj
      obtain ⟨c0, hc0, rfl⟩ := List.mem_map.mp hj
      exact Or.inr ⟨List.not_mem_nil _, rfl, rfl⟩
    · rw [List.map_map]
      have : ((fun j => j.c) ∘ (fun c => (⟨0, c, MAX_D⟩ : Join))) = id := rfl
      rw [this, List.map_id]
      exact List.nodup_range' _ _
  have hparents := prim_loop_pct_parents N rp rk pctM hrows hcols hpct hrpN hrk
    ((List.range' 1 (N - 1)).map (fun c => (⟨0, c, MAX_D⟩ : Join))).length
    [] ⟨0, 0, MAX_D⟩ _ rfl hinv
  -- locate c's join
  have hperm := (build_mst_structure [] pctM (List.range' 1 (N - 1)) hnd).1
  have hnd2 : ((build_mst_joins [] pctM (0 :: List.range' 1 (N - 1))).map
      (fun j => j.c)).Nodup := hperm.nodup_iff.mpr hnd
  have hcmem : c ∈ (build_mst_joins [] pctM (0 :: List.range' 1 (N - 1))).map
      (fun j => j.c) := by
    apply hperm.mem_iff.mpr
    exact List.mem_cons_of_mem _ (List.mem_range'_1.mpr ⟨hc1, by omega⟩)
  obtain ⟨j, hjmem, hjc⟩ := List.mem_map.mp hcmem
  have hjout : j ∈ prim_loop [] pctM ⟨0, 0, MAX_D⟩
      ((List.range' 1 (N - 1)).map (fun c => (⟨0, c, MAX_D⟩ : Join))) := by
    rw [hjs] at hjmem
    rcases List.mem_cons.mp hjmem with rfl | hout
    · exfalso
      have : c = 0 := hjc.symm
      omega
    · exact hout
  have hp := hparents j hjout
  rw [hrange, ← hjc]
  rw [tree_of_joins_unique _ (by rw [← hrange] at hnd2 ⊢; exact hrange ▸ hnd2) j hjmem]
  exact hp

/-- Resolved parents of a sampled MST stay strictly earlier in the
attachment order and land on a real vertex, provided the vertex set covers
`[0, N)` and the fuel covers the attachment count. -/
theorem sample_rp_props (seqs : List (List Char)) (dism : Mtx) (σ : List ℕ)
    (hnd : ((0 : ℕ) :: σ).Nodup) (N : ℕ) (hN : 0 < N)
    (hsub : ∀ x, x < N → x ∈ ((0 : ℕ) :: σ)) (fuel : ℕ)
    (hfuel : ((0 : ℕ) :: σ).length ≤ fuel) :
    ∀ c, 1 ≤ c → c < N →
      resolved_parent (tree_of_joins (build_mst_joins seqs dism (0 :: σ)))
          N fuel c < N ∧
      ((build_mst_joins seqs dism (0 :: σ)).map (fun j => j.c)).indexOf
          (resolved_parent (tree_of_joins (build_mst_joins seqs dism (0 :: σ)))
            N fuel c)
        < ((build_mst_joins seqs dism (0 :: σ)).map (fun j => j.c)).indexOf c := by
  obtain ⟨hperm, hzero, hstep⟩ := build_mst_structure seqs dism σ hnd
  intro c hc1 hcN
  have hcmem : c ∈ (build_mst_joins seqs dism (0 :: σ)).map (fun j => j.c) :=
    hperm.mem_iff.mpr (hsub c hcN)
  have hc0 : c ≠ 0 := by omega
  obtain ⟨h1, h2⟩ := hstep c hcmem hc0
  have hlen : ((build_mst_joins seqs dism (0 :: σ)).map (fun j => j.c)).length
      = ((0 : ℕ) :: σ).length := hperm.length_eq
  have hrkc : ((build_mst_joins seqs dism (0 :: σ)).map (fun j => j.c)).indexOf c
      < ((0 : ℕ) :: σ).length := by
    rw [← hlen]
    exact List.indexOf_lt_length.mpr hcmem
  have hneed : ((build_mst_joins seqs dism (0 :: σ)).map (fun j => j.c)).indexOf
      (tree_of_joins (build_mst_joins seqs dism (0 :: σ)) c) < fuel := by omega
  have hres := resolve_spec (tree_of_joins (build_mst_joins seqs dism (0 :: σ))) N
    ((build_mst_joins seqs dism (0 :: σ)).map (fun j => j.c))
    (fun x => ((build_mst_joins seqs dism (0 :: σ)).map (fun j => j.c)).indexOf x)
    hN hstep fuel (tree_of_joins (build_mst_joins seqs dism (0 :: σ)) c) h1
    hneed
  exact ⟨hres.2.1, Nat.lt_of_le_of_lt hres.2.2 h2⟩

/-- `uint32_t` decrement acts as plain subtraction inside the range. -/
theorem dec32_eq (x : ℕ) (h1 : 1 ≤ x) (h2 : x < U32) : dec32 x = x - 1 := by
  rw [dec32]
  have hx : x + (U32 - 1) = (x - 1) + U32 := by
    have : 0 < U32 := by norm_num [U32]
    omega
  rw [hx, Nat.add_mod_right]
  exact Nat.mod_eq_of_lt (by omega)

theorem dec32_iterate (k x : ℕ) (hk : k ≤ x) (hx : x < U32) :
    dec32^[k] x = x - k := by
  induction k generalizing x with
  | zero => simp
  | succ m ih =>
    rw [Function.iterate_succ_apply, dec32_eq x (by omega) hx,
      ih (x - 1) (by omega) (by omega)]
    omega

theorem pct_step_apply (rp : ℕ → ℕ) (pct2 : ℕ → ℕ → ℕ) (c a b : ℕ) :
    pct_step rp pct2 c a b
      = if a = c ∧ b = rp c then dec32 (pct2 a b) else pct2 a b := rfl

/-- One sample's aggregation pass decrements entry `(a, b)` exactly when `a`
is one of the iterated children and `b` its resolved parent. -/
theorem decrement_fold (rp : ℕ → ℕ) (L : List ℕ) (hnd : L.Nodup)
    (pct0 : ℕ → ℕ → ℕ) (a b : ℕ) :
    (L.foldl (pct_step rp) pct0) a b
      = if a ∈ L ∧ b = rp a then dec32 (pct0 a b) else pct0 a b := by
  induction L generalizing pct0 with
  | nil => simp
  | cons c0 t ih =>
    rw [List.foldl_cons, ih (List.nodup_cons.mp hnd).2]
    have hc0t : c0 ∉ t := (List.nodup_cons.mp hnd).1
    by_cases hat : a ∈ t
    · have hane : a ≠ c0 := fun h => hc0t (h ▸ hat)
      by_cases hb : b = rp a
      · rw [if_pos ⟨hat, hb⟩, if_pos ⟨List.mem_cons_of_mem _ hat, hb⟩,
          pct_step_apply, if_neg (fun hh => hane hh.1)]
      · rw [if_neg (fun hh => hb hh.2), if_neg (fun hh => hb hh.2),
          pct_step_apply, if_neg (fun hh => hane hh.1)]
    · rw [if_neg (fun hh => hat hh.1), pct_step_apply]
      by_cases hac : a = c0
      · by_cases hb : b = rp a
        · rw [if_pos ⟨hac, by rw [← hac]; exact hb⟩,
            if_pos ⟨List.mem_cons.mpr (Or.inl hac), hb⟩]
        · rw [if_neg (fun hh => hb (by rw [hac]; exact hh.2)),
            if_neg (fun hh => hb hh.2)]
      · rw [if_neg (fun hh => hac hh.1),
          if_neg (fun hh => (List.mem_cons.mp hh.1).elim hac hat)]

/-- With a single sample, the aggregated `pct` table holds `PCT_MAX - 1`
exactly at the sample's resolved (child, parent) pairs and `PCT_MAX`
elsewhere. -/
theorem pct_after_single (input : List (List Char)) (do_infer : Bool)
    (dism : Mtx) (s : List (List Char) × List ℕ) (a b : ℕ) :
    pct_after input do_infer dism [s] a b
      = if a ∈ List.range' 1 (input.length - 1)
            ∧ b = resolved_parent (sample_tree input do_infer dism s)
                input.length (sample_dim input do_infer dism s) a
        then MAX_D - 1 else MAX_D := by
  rw [pct_after, List.foldl_cons, List.foldl_nil]
  rw [decrement_fold _ _ (List.nodup_range' _ _) _ a b]
  have hdec : dec32 MAX_D = MAX_D - 1 :=
    dec32_eq MAX_D MAX_D_pos (by norm_num [MAX_D, U32])
  by_cases h : a ∈ List.range' 1 (input.length - 1)
      ∧ b = resolved_parent (sample_tree input do_infer dism s)
          input.length (sample_dim input do_infer dism s) a
  · rw [if_pos h, if_pos h, hdec]
  · rw [if_neg h, if_neg h]

/-- Over any number of samples, entry `(a, b)` of the `pct` table is
`PCT_MAX` decremented once per sample whose resolved parent of `a` is
`b`. -/
theorem pct_after_count (input : List (List Char)) (do_infer : Bool)
    (dism : Mtx) (a b : ℕ) (ha : a ∈ List.range' 1 (input.length - 1)) :
    ∀ (ss : List (List (List Char) × List ℕ)) (pct0 : ℕ → ℕ → ℕ),
      (ss.foldl (fun pct s =>
        (List.range' 1 (input.length - 1)).foldl
          (pct_step (fun c => resolved_parent (sample_tree input do_infer dism s)
            input.length (sample_dim input do_infer dism s) c)) pct) pct0) a b
        = dec32^[(ss.filter (fun s =>
            resolved_parent (sample_tree input do_infer dism s) input.length
              (sample_dim input do_infer dism s) a = b)).length] (pct0 a b) := by
  intro ss
  induction ss with
  | nil => intro pct0; simp
  | cons s t ih =>
    intro pct0
    rw [List.foldl_cons, ih]
    have hinner := decrement_fold
      (fun c => resolved_parent (sample_tree input do_infer dism s)
        input.length (sample_dim input do_infer dism s) c)
      (List.range' 1 (input.length - 1)) (List.nodup_range' _ _) pct0 a b
    by_cases hm : resolved_parent (sample_tree input do_infer dism s)
        input.length (sample_dim input do_infer dism s) a = b
    · rw [List.filter_cons_of_pos (by simp [hm]), List.length_cons, hinner,
        if_pos ⟨ha, hm.symm⟩, Function.iterate_succ_apply]
    · rw [List.filter_cons_of_neg (by simp [hm]), hinner,
        if_neg (fun hh => hm hh.2.symm)]

/-- The `pct` entry read back for an edge equals `PCT_MAX` minus the number
of samples that produced that resolved (child, parent) pair, and that count
is at most the number of samples. -/
theorem pct_after_value (input : List (List Char)) (do_infer : Bool)
    (dism : Mtx) (samples : List (List (List Char) × List ℕ)) (a b : ℕ)
    (ha : a ∈ List.range' 1 (input.length - 1))
    (hbound : samples.length ≤ MAX_D) :
    pct_after input do_infer dism samples a b
        = MAX_D - sample_count input do_infer dism samples a b
      ∧ sample_count input do_infer dism samples a b ≤ samples.length := by
  have hle : sample_count input do_infer dism samples a b ≤ samples.length :=
    List.length_filter_le _ _
  constructor
  · rw [pct_after, pct_after_count input do_infer dism a b ha samples]
    exact dec32_iterate _ _ (Nat.le_trans hle hbound) (by norm_num [MAX_D, U32])
  · exact hle

/-- Unfolding equation for `build_consensus_mst`. -/
theorem build_consensus_mst_eq (input : List (List Char)) (n_samples : ℕ)
    (do_infer : Bool) (samples : List (List (List Char) × List ℕ)) :
    build_consensus_mst input n_samples do_infer samples
      = (List.range' 1 (input.length - 1)).map (fun c =>
          (⟨build_mst [] ⟨input.length, input.length,
                pct_after input do_infer (make_distance_matrix input) samples⟩
              (List.range input.length) c,
            c,
            (make_distance_matrix input).entry c
              (build_mst [] ⟨input.length, input.length,
                  pct_after input do_infer (make_distance_matrix input) samples⟩
                (List.range input.length) c) >>> 16,
            ((MAX_D - (pct_after input do_infer (make_distance_matrix input) samples c
                (build_mst [] ⟨input.length, input.length,
                    pct_after input do_infer (make_distance_matrix input) samples⟩
                  (List.range input.length) c) &&& MAX_D) : ℕ) : ℚ)
              / (n_samples : ℚ)⟩ : Edge)) := rfl

/-- `C5` (confirmed): every edge returned by `build_consensus_mst` has
weight in `[0, 1]`, and the weight equals the number of samples producing
that exact resolved (parent, child) pair divided by the number of samples.
The hypotheses `n_samples ≥ 1` and `n_samples ≤ MAX_D` reflect the C++
call: `n_samples` is a `uint32_t` and a zero-sample run would divide by
zero. -/
theorem build_consensus_mst_weight_spec
    (input : List (List Char)) (n_samples : ℕ) (do_infer : Bool)
    (samples : List (List (List Char) × List ℕ))
    (hS : samples.length = n_samples) (h1 : 1 ≤ n_samples)
    (hMAX : n_samples ≤ MAX_D) (e : Edge)
    (he : e ∈ build_consensus_mst input n_samples do_infer samples) :
    0 ≤ e.weight ∧ e.weight ≤ 1 ∧
      e.weight = (sample_count input do_infer (make_distance_matrix input)
          samples e.child e.parent : ℚ) / (n_samples : ℚ) := by
  rw [build_consensus_mst_eq] at he
  obtain ⟨c, hc, rfl⟩ := List.mem_map.mp he
  obtain ⟨hpv, hcnt⟩ := pct_after_value input do_infer (make_distance_matrix input)
    samples c
    (build_mst [] ⟨input.length, input.length,
        pct_after input do_infer (make_distance_matrix input) samples⟩
      (List.range input.length) c)
    hc (by omega)
  have hand : (MAX_D - sample_count input do_infer (make_distance_matrix input)
      samples c
      (build_mst [] ⟨input.length, input.length,
          pct_after input do_infer (make_distance_matrix input) samples⟩
        (List.range input.length) c)) &&& MAX_D
      = MAX_D - sample_count input do_infer (make_distance_matrix input)
        samples c
        (build_mst [] ⟨input.length, input.length,
            pct_after input do_infer (make_distance_matrix input) samples⟩
          (List.range input.length) c) := by
    have hM : MAX_D = 2 ^ 32 - 1 := by norm_num [MAX_D, U32]
    rw [hM]
    refine Nat.and_pow_two_sub_one_of_lt_two_pow ?_
    omega
  have hnum : MAX_D - (pct_after input do_infer (make_distance_matrix input)
        samples c
        (build_mst [] ⟨input.length, input.length,
            pct_after input do_infer (make_distance_matrix input) samples⟩
          (List.range input.length) c) &&& MAX_D)
      = sample_count input do_infer (make_distance_matrix input) samples c
        (build_mst [] ⟨input.length, input.length,
            pct_after input do_infer (make_distance_matrix input) samples⟩
          (List.range input.length) c) := by
    rw [hpv, hand]
    omega
  have hSpos : (0 : ℚ) < (n_samples : ℚ) := by
    exact_mod_cast Nat.lt_of_lt_of_le Nat.zero_lt_one h1
  refine ⟨?_, ?_, ?_⟩
  · show (0 : ℚ) ≤ _ / (n_samples : ℚ)
    exact div_nonneg (Nat.cast_nonneg _) (Nat.cast_nonneg _)
  · show (_ : ℚ) / (n_samples : ℚ) ≤ 1
    rw [hnum, div_le_one hSpos]
    exact_mod_cast Nat.le_trans hcnt (Nat.le_of_eq hS)
  · show (_ : ℚ) / (n_samples : ℚ) = _
    rw [hnum]

/-- `C1` (confirmed): with `n_samples = 1` the consensus tree is identical
to the single sample's MST: the (parent, child) pairs of the returned edge
list are exactly the resolved parent assignments (children of inferred
ancestors re-parented onto the nearest real ancestor) of the one randomized
sample built during the run.  `σ` is that sample's shuffle order and
`inferred` its inferred-ancestor oracle; `horder` says the shuffle is a
permutation of the sample's vertex indices. -/
theorem build_consensus_single_sample
    (input : List (List Char)) (hne : input ≠ [])
    (L : ℕ) (hlen : ∀ s ∈ input, s.length = L) (huniq : input.Nodup)
    (do_infer : Bool) (inferred : List (List Char)) (σ : List ℕ)
    (horder : ((0 : ℕ) :: σ).Perm (List.range
        (sample_dim input do_infer (make_distance_matrix input) (inferred, 0 :: σ)))) :
    (build_consensus_mst input 1 do_infer [(inferred, 0 :: σ)]).map
        (fun e => (e.parent, e.child))
      = (List.range' 1 (input.length - 1)).map (fun c =>
          (resolved_parent
              (sample_tree input do_infer (make_distance_matrix input)
                (inferred, 0 :: σ))
              input.length
              (sample_dim input do_infer (make_distance_matrix input)
                (inferred, 0 :: σ))
              c,
            c)) := by
  have hN : 0 < input.length := List.length_pos.mpr hne
  have hnd : ((0 : ℕ) :: σ).Nodup := horder.nodup_iff.mpr (List.nodup_range _)
  have hNdim : input.length
      ≤ sample_dim input do_infer (make_distance_matrix input) (inferred, 0 :: σ) := by
    show input.length ≤ max (sample_seqs input do_infer (inferred, 0 :: σ)).length
      (make_distance_matrix input).rows
    exact Nat.le_max_right _ _
  have hsub : ∀ x, x < input.length → x ∈ ((0 : ℕ) :: σ) := by
    intro x hx
    exact horder.symm.mem_iff.mp (List.mem_range.mpr (Nat.lt_of_lt_of_le hx hNdim))
  have hfuel : ((0 : ℕ) :: σ).length
      ≤ sample_dim input do_infer (make_distance_matrix input) (inferred, 0 :: σ) := by
    rw [horder.length_eq, List.length_range]
  have hrp := sample_rp_props (sample_seqs input do_infer (inferred, 0 :: σ))
    (make_distance_matrix input) σ hnd input.length hN hsub
    (sample_dim input do_infer (make_distance_matrix input) (inferred, 0 :: σ)) hfuel
  have hiff : ∀ a b : ℕ,
      (a ∈ List.range' 1 (input.length - 1)
          ∧ b = resolved_parent (sample_tree input do_infer
              (make_distance_matrix input) (inferred, 0 :: σ)) input.length
              (sample_dim input do_infer (make_distance_matrix input)
                (inferred, 0 :: σ)) a)
        ↔ (1 ≤ a ∧ a < input.length
          ∧ b = resolved_parent (sample_tree input do_infer
              (make_distance_matrix input) (inferred, 0 :: σ)) input.length
              (sample_dim input do_infer (make_distance_matrix input)
                (inferred, 0 :: σ)) a) := by
    intro a b
    rw [List.mem_range'_1]
    constructor
    · rintro ⟨⟨h1, h2⟩, h3⟩
      exact ⟨h1, by omega, h3⟩
    · rintro ⟨h1, h2, h3⟩
      exact ⟨⟨h1, by omega⟩, h3⟩
  have hpct : ∀ a b, (⟨input.length, input.length,
        pct_after input do_infer (make_distance_matrix input)
          [(inferred, 0 :: σ)]⟩ : Mtx).entry a b
      = if 1 ≤ a ∧ a < input.length
          ∧ b = resolved_parent (sample_tree input do_infer
              (make_distance_matrix input) (inferred, 0 :: σ)) input.length
              (sample_dim input do_infer (make_distance_matrix input)
                (inferred, 0 :: σ)) a
        then MAX_D - 1 else MAX_D := by
    intro a b
    show pct_after input do_infer (make_distance_matrix input)
        [(inferred, 0 :: σ)] a b = _
    rw [pct_after_single]
    exact if_congr (hiff a b) rfl rfl
  have htreef : ∀ c, 1 ≤ c → c < input.length →
      build_mst [] ⟨input.length, input.length,
          pct_after input do_infer (make_distance_matrix input)
            [(inferred, 0 :: σ)]⟩ (List.range input.length) c
        = resolved_parent (sample_tree input do_infer
            (make_distance_matrix input) (inferred, 0 :: σ)) input.length
            (sample_dim input do_infer (make_distance_matrix input)
              (inferred, 0 :: σ)) c := by
    intro c hc1 hcN
    have hrpN : ∀ a, 1 ≤ a → a < input.length →
        (fun c => resolved_parent (sample_tree input do_infer
            (make_distance_matrix input) (inferred, 0 :: σ)) input.length
            (sample_dim input do_infer (make_distance_matrix input)
              (inferred, 0 :: σ)) c) a < input.length :=
      fun a h1 h2 => (hrp a h1 h2).1
    have hrkd : ∀ a, 1 ≤ a → a < input.length →
        (fun x => ((build_mst_joins (sample_seqs input do_infer (inferred, 0 :: σ))
            (make_distance_matrix input) (0 :: σ)).map (fun j => j.c)).indexOf x)
          ((fun c => resolved_parent (sample_tree input do_infer
              (make_distance_matrix input) (inferred, 0 :: σ)) input.length
              (sample_dim input do_infer (make_distance_matrix input)
                (inferred, 0 :: σ)) c) a)
        < (fun x => ((build_mst_joins (sample_seqs input do_infer (inferred, 0 :: σ))
            (make_distance_matrix input) (0 :: σ)).map (fun j => j.c)).indexOf x) a :=
      fun a h1 h2 => (hrp a h1 h2).2
    exact build_mst_pct_tree input.length
      (fun c => resolved_parent (sample_tree input do_infer
          (make_distance_matrix input) (inferred, 0 :: σ)) input.length
          (sample_dim input do_infer (make_distance_matrix input)
            (inferred, 0 :: σ)) c)
      (fun x => ((build_mst_joins (sample_seqs input do_infer (inferred, 0 :: σ))
          (make_distance_matrix input) (0 :: σ)).map (fun j => j.c)).indexOf x)
      ⟨input.length, input.length,
        pct_after input do_infer (make_distance_matrix input) [(inferred, 0 :: σ)]⟩
      rfl rfl hpct hrpN hrkd c hc1 hcN
  rw [build_consensus_mst_eq, List.map_map]
  refine List.map_congr_left ?_
  intro c hc
  have hcb := List.mem_range'_1.mp hc
  have hc1 : 1 ≤ c := hcb.1
  have hcN : c < input.length := by
    have := hcb.2
    omega
  show (build_mst [] ⟨input.length, input.length,
      pct_after input do_infer (make_distance_matrix input)
        [(inferred, 0 :: σ)]⟩ (List.range input.length) c, c) = _
  rw [htreef c hc1 hcN]

/-- `C1` (witness): the single-sample equivalence applied to the concrete
input ["A", "C"] with shuffle order `[0, 1]` and no inferred ancestors. -/
theorem build_consensus_single_sample_witness :
    (([['A'], ['C']] : List (List Char)) ≠ [] ∧
      (∀ s ∈ ([['A'], ['C']] : List (List Char)), s.length = 1) ∧
      ([['A'], ['C']] : List (List Char)).Nodup ∧
      ((0 : ℕ) :: [1]).Perm (List.range
        (sample_dim [['A'], ['C']] false (make_distance_matrix [['A'], ['C']])
          ([], 0 :: [1])))) ∧
    (build_consensus_mst [['A'], ['C']] 1 false [([], 0 :: [1])]).map
        (fun e => (e.parent, e.child))
      = (List.range' 1 (([['A'], ['C']] : List (List Char)).length - 1)).map (fun c =>
          (resolved_parent
              (sample_tree [['A'], ['C']] false (make_distance_matrix [['A'], ['C']])
                ([], 0 :: [1]))
              ([['A'], ['C']] : List (List Char)).length
              (sample_dim [['A'], ['C']] false (make_distance_matrix [['A'], ['C']])
                ([], 0 :: [1]))
              c,
            c)) :=
  ⟨⟨by decide, by decide, by decide, by decide⟩,
    build_consensus_single_sample [['A'], ['C']] (by decide) 1 (by decide)
      (by decide) false [] [1] (by decide)⟩

/-- `C5` (witness): the weight specification applied to the edge produced by
a one-sample run on the concrete input ["A", "C"]. -/
theorem build_consensus_mst_weight_spec_witness :
    (([([], [0, 1])] : List (List (List Char) × List ℕ)).length = 1 ∧
      1 ≤ (1 : ℕ) ∧ (1 : ℕ) ≤ MAX_D) ∧
    (0 ≤ ((build_consensus_mst [['A'], ['C']] 1 false
          [([], [0, 1])]).getD 0 ⟨0, 0, 0, 0⟩).weight ∧
      ((build_consensus_mst [['A'], ['C']] 1 false
          [([], [0, 1])]).getD 0 ⟨0, 0, 0, 0⟩).weight ≤ 1 ∧
      ((build_consensus_mst [['A'], ['C']] 1 false
          [([], [0, 1])]).getD 0 ⟨0, 0, 0, 0⟩).weight
        = (sample_count [['A'], ['C']] false (make_distance_matrix [['A'], ['C']])
            [([], [0, 1])]
            ((build_consensus_mst [['A'], ['C']] 1 false
              [([], [0, 1])]).getD 0 ⟨0, 0, 0, 0⟩).child
            ((build_consensus_mst [['A'], ['C']] 1 false
              [([], [0, 1])]).getD 0 ⟨0, 0, 0, 0⟩).parent : ℚ) / ((1 : ℕ) : ℚ)) :=
  ⟨⟨rfl, Nat.le_refl 1, by norm_num [MAX_D, U32]⟩,
    build_consensus_mst_weight_spec [['A'], ['C']] 1 false [([], [0, 1])]
      rfl (Nat.le_refl 1) (by norm_num [MAX_D, U32])
      ((build_consensus_mst [['A'], ['C']] 1 false [([], [0, 1])]).getD 0 ⟨0, 0, 0, 0⟩)
      (by rw [build_consensus_mst_eq]
          exact List.mem_singleton_self _)⟩

theorem hamming_distance_nil_left (b : List Char) :
    hamming_distance [] b = 0 := rfl

theorem hamming_distance_nil_right (a : List Char) :
    hamming_distance a [] = 0 := by
  rw [hamming_distance, List.zip_nil_right]
  rfl

/-- A single substitution at an in-range position gives Hamming distance
exactly 1. -/
theorem hamming_set (R : List Char) (p : ℕ) (b : Char) (hp : p < R.length)
    (hb : b ≠ R.getD p 'A') : hamming_distance R (R.set p b) = 1 := by
  induction R generalizing p with
  | nil => simp at hp
  | cons x t ih =>
    cases p with
    | zero =>
      rw [List.set_cons_zero, hamming_distance, List.zip_cons_cons,
        List.countP_cons]
      have h0 := hamming_distance_self t
      rw [hamming_distance] at h0
      rw [h0]
      simp only [List.getD_cons_zero] at hb
      simp [Ne.symm hb]
    | succ q =>
      rw [List.set_cons_succ, hamming_distance, List.zip_cons_cons,
        List.countP_cons]
      have ht := ih q (by simpa using hp) (by simpa using hb)
      rw [hamming_distance] at ht
      rw [ht]
      simp

/-- Substitutions at two distinct in-range positions give Hamming distance
exactly 2. -/
theorem hamming_set_set (R : List Char) (p q : ℕ) (b c : Char)
    (hp : p < R.length) (hq : q < R.length) (hpq : p ≠ q)
    (hb : b ≠ R.getD p 'A') (hc : c ≠ R.getD q 'A') :
    hamming_distance (R.set p b) (R.set q c) = 2 := by
  induction R generalizing p q with
  | nil => simp at hp
  | cons x t ih =>
    cases p with
    | zero =>
      cases q with
      | zero => exact absurd rfl hpq
      | succ q2 =>
        rw [List.set_cons_zero, List.set_cons_succ, hamming_distance,
          List.zip_cons_cons, List.countP_cons]
        have ht := hamming_set t q2 c (by simpa using hq) (by simpa using hc)
        rw [hamming_distance] at ht
        rw [ht]
        simp only [List.getD_cons_zero] at hb
        simp [hb]
    | succ p2 =>
      cases q with
      | zero =>
        rw [List.set_cons_zero, List.set_cons_succ, hamming_distance,
          List.zip_cons_cons, List.countP_cons]
        have ht : hamming_distance (t.set p2 b) t = 1 := by
          rw [hamming_distance_comm]
          exact hamming_set t p2 b (by simpa using hp) (by simpa using hb)
        rw [hamming_distance] at ht
        rw [ht]
        simp only [List.getD_cons_zero] at hc
        simp [Ne.symm hc]
      | succ q2 =>
        rw [List.set_cons_succ, List.set_cons_succ, hamming_distance,
          List.zip_cons_cons, List.countP_cons]
        have ht := ih p2 q2 (by simpa using hp) (by simpa using hq)
          (by omega) (by simpa using hb) (by simpa using hc)
        rw [hamming_distance] at ht
        rw [ht]
        simp

/-- When every visited vertex lies inside the distance matrix, the pivot
loop never consults the sequence list (the Hamming fallback of
tree.cpp:486-489 is unreachable), so its result does not depend on it. -/
theorem prim_loop_seq_congr (dism : Mtx) (seqs1 seqs2 : List (List Char)) :
    ∀ (n : ℕ) (last : Join) (rest : List Join), rest.length = n →
      last.c < dism.cols →
      (∀ j ∈ rest, j.c < dism.rows ∧ j.c < dism.cols) →
      prim_loop seqs1 dism last rest = prim_loop seqs2 dism last rest := by
  intro n
  induction n with
  | zero =>
    intro last rest hlen _ _
    have h0 : rest = [] := List.length_eq_zero.mp hlen
    subst h0
    rw [prim_loop, prim_loop]
  | succ m ih =>
    intro last rest hlen hlast hbounds
    cases rest with
    | nil => simp at hlen
    | cons h t =>
      rw [prim_loop, prim_loop]
      have hmap : (h :: t).map (relax seqs1 dism last.c)
          = (h :: t).map (relax seqs2 dism last.c) := by
        refine List.map_congr_left ?_
        intro j hj
        have hd : mst_distance seqs1 dism j.c last.c
            = mst_distance seqs2 dism j.c last.c := by
          rw [mst_distance, mst_distance,
            if_pos ⟨(hbounds j hj).1, hlast⟩, if_pos ⟨(hbounds j hj).1, hlast⟩]
        rw [relax, relax, hd]
      rw [hmap]
      have hk_lt : argmin_d ((h :: t).map (relax seqs2 dism last.c))
          < ((h :: t).map (relax seqs2 dism last.c)).length :=
        argmin_d_lt_length _ (by simp)
      have hperm := select_perm ((h :: t).map (relax seqs2 dism last.c)) _ hk_lt
      have hbolt : ∀ j ∈ (h :: t).map (relax seqs2 dism last.c),
          j.c < dism.rows ∧ j.c < dism.cols := by
        intro j hj
        obtain ⟨j0, hj0, rfl⟩ := List.mem_map.mp hj
        rw [relax_c]
        exact hbounds j0 hj0
      have hchosen_mem := getD_mem ((h :: t).map (relax seqs2 dism last.c)) _ hk_lt
      have hlen2 : ((((h :: t).map (relax seqs2 dism last.c)).set
          (argmin_d ((h :: t).map (relax seqs2 dism last.c)))
          (((h :: t).map (relax seqs2 dism last.c)).headD default)).tail).length = m := by
        simp only [List.length_tail, List.length_set, List.length_map,
          List.length_cons]
        simpa using Nat.succ_injective hlen
      rw [ih _ _ hlen2 (hbolt _ hchosen_mem).2
        (fun j hj => hbolt j (hperm.mem_iff.mp (List.mem_cons_of_mem _ hj)))]

/-- `build_mst_joins` likewise ignores the sequence list when every vertex
of the visitation order is inside the matrix. -/
theorem build_mst_joins_seq_congr (dism : Mtx) (seqs1 seqs2 : List (List Char))
    (order : List ℕ)
    (hbound : ∀ x ∈ order, x < dism.rows ∧ x < dism.cols) :
    build_mst_joins seqs1 dism order = build_mst_joins seqs2 dism order := by
  cases order with
  | nil => rfl
  | cons c0 rest =>
    rw [build_mst_joins, build_mst_joins]
    simp only [List.map_cons]
    rw [prim_loop_seq_congr dism seqs1 seqs2 (rest.map (fun c => (⟨0, c, MAX_D⟩ : Join))).length
      ⟨0, c0, MAX_D⟩ _ rfl (hbound c0 (List.mem_cons_self _ _)).2 ?_]
    intro j hj
    obtain ⟨c1, hc1, rfl⟩ := List.mem_map.mp hj
    exact hbound c1 (List.mem_cons_of_mem _ hc1)

/-- `pct_after` over a single sample, unfolded. -/
theorem pct_after_singleton (input : List (List Char)) (do_infer : Bool)
    (dism : Mtx) (s : List (List Char) × List ℕ) :
    pct_after input do_infer dism [s]
      = (List.range' 1 (input.length - 1)).foldl
          (pct_step (fun c => resolved_parent (sample_tree input do_infer dism s)
            input.length (sample_dim input do_infer dism s) c))
          (fun _ _ => MAX_D) := rfl

/-- Weight arithmetic helper for concrete one-sample runs. -/
theorem weight_helper (x : ℕ) (h : x = 1) :
    ((x : ℕ) : ℚ) / (((1 : ℕ) : ℕ) : ℚ) = 1 := by
  rw [h]
  norm_num

/-- The pivot loop agrees with its fuel-indexed variant whenever the fuel
covers the join list. -/
theorem prim_loop_eq_fuel (seqs : List (List Char)) (dism : Mtx) :
    ∀ (n : ℕ) (last : Join) (rest : List Join), rest.length ≤ n →
      prim_loop seqs dism last rest = prim_loop_fuel seqs dism n last rest := by
  intro n
  induction n with
  | zero =>
    intro last rest hlen
    have h0 : rest = [] := List.eq_nil_of_length_eq_zero (Nat.le_zero.mp hlen)
    subst h0
    simp only [prim_loop, prim_loop_fuel]
  | succ m ih =>
    intro last rest hlen
    cases rest with
    | nil => simp only [prim_loop, prim_loop_fuel]
    | cons h t =>
      rw [prim_loop, prim_loop_fuel]
      have hlen2 : ((((h :: t).map (relax seqs dism last.c)).set
          (argmin_d ((h :: t).map (relax seqs dism last.c)))
          (((h :: t).map (relax seqs dism last.c)).headD default)).tail).length
          ≤ m := by
        simp only [List.length_cons] at hlen
        simp only [List.length_tail, List.length_set, List.length_map,
          List.length_cons]
        omega
      exact congrArg _ (ih _ _ hlen2)

/-- `build_mst_joins` agrees with its fuel-indexed variant. -/
theorem build_mst_joins_eq_fuel (seqs : List (List Char)) (dism : Mtx)
    (order : List ℕ) :
    build_mst_joins seqs dism order = build_mst_joins_fuel seqs dism order := by
  unfold build_mst_joins build_mst_joins_fuel
  cases order.map (fun c => (⟨0, c, MAX_D⟩ : Join)) with
  | nil => rfl
  | cons h t => exact congrArg _ (prim_loop_eq_fuel seqs dism t.length h t le_rfl)

/-- `build_mst` agrees with its fuel-indexed variant. -/
theorem build_mst_eq_fuel (seqs : List (List Char)) (dism : Mtx)
    (order : List ℕ) :
    build_mst seqs dism order = build_mst_fuel seqs dism order :=
  congrArg tree_of_joins (build_mst_joins_eq_fuel seqs dism order)

/-- A sample tree computed through the fuel-indexed loop. -/
theorem sample_tree_eq_fuel (input : List (List Char)) (do_infer : Bool)
    (dism : Mtx) (s : List (List Char) × List ℕ) :
    sample_tree input do_infer dism s
      = build_mst_fuel (sample_seqs input do_infer s) dism s.2 :=
  build_mst_eq_fuel (sample_seqs input do_infer s) dism s.2

/-- `C7` (confirmed): four sequences — a root `R` and three variants, each
differing from `R` by one substitution at three pairwise-distinct
positions — run through `build_consensus_mst` with one sample, no ancestor
inference and any shuffle order yield the star topology: `R` (index 0) is
the parent of all three variants, every edge has distance 1 and weight
1.0. -/
theorem build_consensus_star
    (R v1 v2 v3 : List Char) (p1 p2 p3 : ℕ) (b1 b2 b3 : Char)
    (hp1 : p1 < R.length) (hp2 : p2 < R.length) (hp3 : p3 < R.length)
    (h12 : p1 ≠ p2) (h13 : p1 ≠ p3) (h23 : p2 ≠ p3)
    (hv1 : v1 = R.set p1 b1) (hv2 : v2 = R.set p2 b2) (hv3 : v3 = R.set p3 b3)
    (hb1 : b1 ≠ R.getD p1 'A') (hb2 : b2 ≠ R.getD p2 'A')
    (hb3 : b3 ≠ R.getD p3 'A')
    (σ : List ℕ) (hσ : σ.Perm [1, 2, 3]) :
    build_consensus_mst [R, v1, v2, v3] 1 false [([], 0 :: σ)]
      = [⟨0, 1, 1, 1⟩, ⟨0, 2, 1, 1⟩, ⟨0, 3, 1, 1⟩] := by
  -- Hamming profile of the inputs
  have hH01 : hamming_distance R v1 = 1 := by
    rw [hv1]; exact hamming_set R p1 b1 hp1 hb1
  have hH02 : hamming_distance R v2 = 1 := by
    rw [hv2]; exact hamming_set R p2 b2 hp2 hb2
  have hH03 : hamming_distance R v3 = 1 := by
    rw [hv3]; exact hamming_set R p3 b3 hp3 hb3
  have hH10 : hamming_distance v1 R = 1 := by rw [hamming_distance_comm]; exact hH01
  have hH20 : hamming_distance v2 R = 1 := by rw [hamming_distance_comm]; exact hH02
  have hH30 : hamming_distance v3 R = 1 := by rw [hamming_distance_comm]; exact hH03
  have hH12 : hamming_distance v1 v2 = 2 := by
    rw [hv1, hv2]; exact hamming_set_set R p1 p2 b1 b2 hp1 hp2 h12 hb1 hb2
  have hH13 : hamming_distance v1 v3 = 2 := by
    rw [hv1, hv3]; exact hamming_set_set R p1 p3 b1 b3 hp1 hp3 h13 hb1 hb3
  have hH23 : hamming_distance v2 v3 = 2 := by
    rw [hv2, hv3]; exact hamming_set_set R p2 p3 b2 b3 hp2 hp3 h23 hb2 hb3
  have hH21 : hamming_distance v2 v1 = 2 := by rw [hamming_distance_comm]; exact hH12
  have hH31 : hamming_distance v3 v1 = 2 := by rw [hamming_distance_comm]; exact hH13
  have hH32 : hamming_distance v3 v2 = 2 := by rw [hamming_distance_comm]; exact hH23
  -- every pairwise Hamming distance agrees with the concrete model input
  have hH : ∀ i j, hamming_distance (([R, v1, v2, v3] : List (List Char)).getD i [])
        (([R, v1, v2, v3] : List (List Char)).getD j [])
      = hamming_distance
        (([['A','A','A'], ['C','A','A'], ['A','C','A'], ['A','A','C']] :
            List (List Char)).getD i [])
        (([['A','A','A'], ['C','A','A'], ['A','C','A'], ['A','A','C']] :
            List (List Char)).getD j []) := by
    intro i j
    rcases i with _|_|_|_|i <;> rcases j with _|_|_|_|j <;>
      simp only [List.getD_cons_zero, List.getD_cons_succ, List.getD_nil] <;>
      simp only [hH01, hH02, hH03, hH10, hH20, hH30, hH12, hH13, hH23, hH21,
        hH31, hH32, hamming_distance_self, hamming_distance_nil_left,
        hamming_distance_nil_right] <;>
      decide
  -- hence the distance matrices coincide
  have hdism : make_distance_matrix [R, v1, v2, v3]
      = make_distance_matrix [['A','A','A'], ['C','A','A'], ['A','C','A'], ['A','A','C']] := by
    show Mtx.mk _ _ _ = Mtx.mk _ _ _
    rw [Mtx.mk.injEq]
    refine ⟨by simp, by simp, ?_⟩
    funext i j
    rw [root_distance, root_distance, hH i j, hH 0 j]
  have hlen4 : ([R, v1, v2, v3] : List (List Char)).length = 4 := rfl
  have hconc4 : ([['A','A','A'], ['C','A','A'], ['A','C','A'], ['A','A','C']] :
      List (List Char)).length = 4 := rfl
  -- vertex bounds for the shuffle order
  have hbound : ∀ x ∈ ((0 : ℕ) :: σ),
      x < (make_distance_matrix [['A','A','A'], ['C','A','A'], ['A','C','A'],
          ['A','A','C']]).rows
        ∧ x < (make_distance_matrix [['A','A','A'], ['C','A','A'], ['A','C','A'],
          ['A','A','C']]).cols := by
    intro x hx
    have hxlt : x < 4 := by
      rcases List.mem_cons.mp hx with rfl | hx2
      · omega
      · have := hσ.mem_iff.mp hx2
        fin_cases this <;> omega
    exact ⟨hxlt, hxlt⟩
  have hjoins := build_mst_joins_seq_congr
    (make_distance_matrix [['A','A','A'], ['C','A','A'], ['A','C','A'], ['A','A','C']])
    (sample_seqs [R, v1, v2, v3] false ([], 0 :: σ))
    (sample_seqs [['A','A','A'], ['C','A','A'], ['A','C','A'], ['A','A','C']]
      false ([], 0 :: σ))
    (0 :: σ) hbound
  have hstree : sample_tree [R, v1, v2, v3] false
        (make_distance_matrix [R, v1, v2, v3]) ([], 0 :: σ)
      = sample_tree [['A','A','A'], ['C','A','A'], ['A','C','A'], ['A','A','C']]
        false (make_distance_matrix [['A','A','A'], ['C','A','A'], ['A','C','A'],
          ['A','A','C']]) ([], 0 :: σ) := by
    show tree_of_joins (build_mst_joins
        (sample_seqs [R, v1, v2, v3] false ([], 0 :: σ))
        (make_distance_matrix [R, v1, v2, v3]) (0 :: σ)) = _
    rw [hdism]
    exact congrArg tree_of_joins hjoins
  have hsdim1 : sample_dim [R, v1, v2, v3] false
      (make_distance_matrix [R, v1, v2, v3]) ([], 0 :: σ) = 4 := rfl
  have hsdim2 : sample_dim [['A','A','A'], ['C','A','A'], ['A','C','A'], ['A','A','C']]
      false (make_distance_matrix [['A','A','A'], ['C','A','A'], ['A','C','A'],
        ['A','A','C']]) ([], 0 :: σ) = 4 := rfl
  have hpct_eq : pct_after [R, v1, v2, v3] false
        (make_distance_matrix [R, v1, v2, v3]) [([], 0 :: σ)]
      = pct_after [['A','A','A'], ['C','A','A'], ['A','C','A'], ['A','A','C']]
        false (make_distance_matrix [['A','A','A'], ['C','A','A'], ['A','C','A'],
          ['A','A','C']]) [([], 0 :: σ)] := by
    rw [pct_after_singleton, pct_after_singleton, hstree, hsdim1, hsdim2,
      hlen4, hconc4]
  rw [build_consensus_mst_eq, hpct_eq, hdism, hlen4]
  rw [pct_after_singleton, sample_tree_eq_fuel, build_mst_eq_fuel]
  -- the run is now fully concrete except for the shuffle σ
  have hσ6 : σ = [1, 2, 3] ∨ σ = [1, 3, 2] ∨ σ = [2, 1, 3] ∨ σ = [2, 3, 1]
      ∨ σ = [3, 1, 2] ∨ σ = [3, 2, 1] := by
    have hl : σ.length = 3 := hσ.length_eq
    have hnd : σ.Nodup := (List.Perm.nodup_iff hσ).mpr (by decide)
    rcases σ with _ | ⟨a, _ | ⟨b, _ | ⟨c, _ | ⟨d, σ⟩⟩⟩⟩
    · exact absurd hl (by simp)
    · exact absurd hl (by simp)
    · exact absurd hl (by simp)
    · have ha : a ∈ ([1, 2, 3] : List ℕ) := hσ.mem_iff.mp (by simp)
      have hb : b ∈ ([1, 2, 3] : List ℕ) := hσ.mem_iff.mp (by simp)
      have hc : c ∈ ([1, 2, 3] : List ℕ) := hσ.mem_iff.mp (by simp)
      fin_cases ha <;> fin_cases hb <;> fin_cases hc <;> simp_all
    · exact absurd hl (by simp only [List.length_cons]; omega)
  have hRHS : ([⟨0, 1, 1, 1⟩, ⟨0, 2, 1, 1⟩, ⟨0, 3, 1, 1⟩] : List Edge)
      = (List.range' 1 3).map (fun c => (⟨0, c, 1, 1⟩ : Edge)) := rfl
  rw [hRHS, show (4 : ℕ) - 1 = 3 from rfl]
  rcases hσ6 with rfl | rfl | rfl | rfl | rfl | rfl <;>
    · refine List.map_congr_left ?_
      intro c hc
      have hc3 : c = 1 ∨ c = 2 ∨ c = 3 := by
        have := hc
        simp only [List.mem_range'_1] at this
        omega
      rcases hc3 with rfl | rfl | rfl <;>
        · show Edge.mk _ _ _ _ = Edge.mk _ _ _ _
          rw [Edge.mk.injEq]
          exact ⟨by decide, rfl, by decide, weight_helper _ (by decide)⟩

/-- Witness for `C7`: the star ACGT instance `AAA / CAA / ACA / AAC` with
the identity shuffle. -/
theorem build_consensus_star_witness :
    build_consensus_mst
        [['A','A','A'], ['C','A','A'], ['A','C','A'], ['A','A','C']] 1 false
        [([], 0 :: [1, 2, 3])]
      = [⟨0, 1, 1, 1⟩, ⟨0, 2, 1, 1⟩, ⟨0, 3, 1, 1⟩] :=
  build_consensus_star ['A','A','A'] ['C','A','A'] ['A','C','A'] ['A','A','C']
    0 1 2 'C' 'C' 'C' (by decide) (by decide) (by decide)
    (by decide) (by decide) (by decide) (by decide) (by decide) (by decide)
    (by decide) (by decide) (by decide) [1, 2, 3] (List.Perm.refl _)

/-- `C9` (confirmed): after the Fitch upward pass, every internal node with
two labeled children holds, at each sequence position, the intersection of
its children's ambiguity bitmasks when that intersection is non-empty and
otherwise their union, and every node with exactly one labeled child copies
that child's bitmask unchanged. -/
theorem fitch_label_up_ok (t : FTree) : FitchOK (fitch_label_up t) := by
  induction t with
  | leaf s => trivial
  | one c ih => exact ⟨rfl, ih⟩
  | two l r ihl ihr =>
    refine ⟨List.length_zipWith _ _ _, ?_, ihl, ihr⟩
    intro i hi
    rw [List.length_zipWith] at hi
    have h1 : i < (fitch_label_up l).bseq.length :=
      lt_of_lt_of_le hi (min_le_left _ _)
    have h2 : i < (fitch_label_up r).bseq.length :=
      lt_of_lt_of_le hi (min_le_right _ _)
    have hz : i < (List.zipWith fitch_combine (fitch_label_up l).bseq
        (fitch_label_up r).bseq).length := by
      rw [List.length_zipWith]; exact hi
    rw [List.getD_eq_getElem _ _ hz, List.getD_eq_getElem _ _ h1,
      List.getD_eq_getElem _ _ h2, List.getElem_zipWith]
    rfl

/-- Squares bound absolute values: if `a² ≤ ε²` with `0 ≤ ε` then `|a| ≤ ε`. -/
theorem abs_le_of_sq_le (a e : ℚ) (he : 0 ≤ e) (h : a * a ≤ e * e) :
    |a| ≤ e := by
  rw [abs_le]
  constructor <;> nlinarith [sq_nonneg (a + e), sq_nonneg (a - e)]

/-- `C8` counterexample: two coincident nodes at `(1e-5, 0)` with unit
masses and default parameters, one worker; node 0 is pinned and at rest,
yet after a single `simulate_step` its velocity is nonzero (`-1e-8`) and
its position has moved: the damping term `-C*x` gives the pinned node a
tiny tentative velocity, the speed-clamp `continue` fires because that
speed is below `EPSILON_`, so the `pins` multiplier is never applied. -/
theorem simulate_step_pinned_node_drifts :
    (simulate_step default_params (fun _ => 1) (fun _ => 1) cex_sqrt 1
        (pin_node cex_state 0)).vx 0 ≠ 0
    ∧ (simulate_step default_params (fun _ => 1) (fun _ => 1) cex_sqrt 1
        (pin_node cex_state 0)).x 0 ≠ (pin_node cex_state 0).x 0 := by
  have hltri : ltri_ij 0 = (1, 0) := by decide
  have hlo : worker_lo 2 1 0 = 0 := by decide
  have hhi : worker_hi 2 1 0 = 1 := by decide
  have hrange1 : List.range 1 = [0] := by decide
  have hrange' : List.range' 0 1 = [0] := by decide
  have hiter : iterate_pairs (ltri_ij 0) 1 = [(1, 0)] := by decide
  have hn : (pin_node cex_state 0).n = 2 := rfl
  have hwf : worker_force (pin_node cex_state 0) (fun _ => 1) (fun _ => 1)
      cex_sqrt 1 (-1 / 10) (1 / 4) 0 1 0 = (0, 0) := by
    simp only [worker_force, hiter, hrange']
    norm_num [pair_force, pin_node, cex_state, cex_sqrt, EPSILON_]
  have hforce : total_force (pin_node cex_state 0) (fun _ => 1) (fun _ => 1)
      cex_sqrt 1 (-1 / 10) (1 / 4) 1 0 = (0, 0) := by
    simp only [total_force, hrange1, List.foldl_cons, List.foldl_nil, hn,
      hlo, hhi]
    rw [show (1 : Nat) - 0 = 1 from rfl, hwf]
    norm_num
  have htent : tent_v default_params (fun _ => 1) (fun _ => 1) cex_sqrt 1
      (pin_node cex_state 0) 0 = (-1 / 100000000, 0) := by
    simp only [tent_v, default_params]
    rw [hforce]
    norm_num [pin_node, cex_state]
  have hclamp : clamp_v default_params (fun _ => 1) (fun _ => 1) cex_sqrt 1
      (pin_node cex_state 0) 0 = (-1 / 100000000, 0) := by
    simp only [clamp_v]
    rw [htent]
    norm_num [cex_sqrt, EPSILON_]
  refine ⟨?_, ?_⟩
  · show (clamp_v default_params (fun _ => 1) (fun _ => 1) cex_sqrt 1
        (pin_node cex_state 0) 0).1 ≠ 0
    rw [hclamp]
    norm_num
  · show (pin_node cex_state 0).x 0 + default_params.dT
        * (clamp_v default_params (fun _ => 1) (fun _ => 1) cex_sqrt 1
            (pin_node cex_state 0) 0).1 ≠ (pin_node cex_state 0).x 0
    rw [hclamp]
    norm_num [pin_node, cex_state, default_params]

/-- `C8` (amended): what `simulate_step` guarantees for a pinned node, per
`pinned_step_ok`: the pin survives the step; when the computed speed of the
tentative velocity exceeds `EPSILON_` the velocity is zeroed and the
position is exactly unchanged; when it does not, the velocity keeps its
tentative (possibly nonzero) value and the position drifts by `dT * v`,
bounded per axis by `dT * EPSILON_` when the square-root oracle is exact
and nonnegative at the queried point. -/
theorem simulate_step_pinned (P : SimParams) (sL lL : Nat -> Rat)
    (sqrtQ : Rat -> Rat) (nw : Nat) (st : NetState) (i : Nat)
    (hpin : st.pins i = 0) :
    pinned_step_ok P sL lL sqrtQ nw st i := by
  have hclamp_le :
      sqrtQ ((tent_v P sL lL sqrtQ nw st i).1 * (tent_v P sL lL sqrtQ nw st i).1
          + (tent_v P sL lL sqrtQ nw st i).2 * (tent_v P sL lL sqrtQ nw st i).2)
        ≤ EPSILON_ →
      clamp_v P sL lL sqrtQ nw st i = tent_v P sL lL sqrtQ nw st i := by
    intro h
    simp only [clamp_v]
    rw [if_pos h]
  have hclamp_gt :
      ¬ sqrtQ ((tent_v P sL lL sqrtQ nw st i).1 * (tent_v P sL lL sqrtQ nw st i).1
          + (tent_v P sL lL sqrtQ nw st i).2 * (tent_v P sL lL sqrtQ nw st i).2)
        ≤ EPSILON_ →
      clamp_v P sL lL sqrtQ nw st i = (0, 0) := by
    intro h
    simp only [clamp_v]
    rw [if_neg h, hpin]
    simp
  refine ⟨rfl, fun h => ?_, fun h => ?_, fun h h0 hsq hdT => ?_⟩
  · have hc := hclamp_gt (not_le.mpr h)
    refine ⟨?_, ?_, ?_, ?_⟩
    · show (clamp_v P sL lL sqrtQ nw st i).1 = 0
      rw [hc]
    · show (clamp_v P sL lL sqrtQ nw st i).2 = 0
      rw [hc]
    · show st.x i + P.dT * (clamp_v P sL lL sqrtQ nw st i).1 = st.x i
      rw [hc]
      simp
    · show st.y i + P.dT * (clamp_v P sL lL sqrtQ nw st i).2 = st.y i
      rw [hc]
      simp
  · have hc := hclamp_le h
    refine ⟨?_, ?_, ?_, ?_⟩
    · show (clamp_v P sL lL sqrtQ nw st i).1 = _
      rw [hc]
    · show (clamp_v P sL lL sqrtQ nw st i).2 = _
      rw [hc]
    · show st.x i + P.dT * (clamp_v P sL lL sqrtQ nw st i).1 = _
      rw [hc]
    · show st.y i + P.dT * (clamp_v P sL lL sqrtQ nw st i).2 = _
      rw [hc]
  · have hc := hclamp_le h
    have heps : (0 : Rat) ≤ EPSILON_ := by norm_num [EPSILON_]
    have hss : sqrtQ ((tent_v P sL lL sqrtQ nw st i).1 * (tent_v P sL lL sqrtQ nw st i).1
          + (tent_v P sL lL sqrtQ nw st i).2 * (tent_v P sL lL sqrtQ nw st i).2)
        * sqrtQ ((tent_v P sL lL sqrtQ nw st i).1 * (tent_v P sL lL sqrtQ nw st i).1
          + (tent_v P sL lL sqrtQ nw st i).2 * (tent_v P sL lL sqrtQ nw st i).2)
        ≤ EPSILON_ * EPSILON_ := mul_self_le_mul_self h0 h
    have habs1 : |(tent_v P sL lL sqrtQ nw st i).1| ≤ EPSILON_ :=
      abs_le_of_sq_le _ _ heps (by
        nlinarith [mul_self_nonneg (tent_v P sL lL sqrtQ nw st i).2])
    have habs2 : |(tent_v P sL lL sqrtQ nw st i).2| ≤ EPSILON_ :=
      abs_le_of_sq_le _ _ heps (by
        nlinarith [mul_self_nonneg (tent_v P sL lL sqrtQ nw st i).1])
    have hx2 : (simulate_step P sL lL sqrtQ nw st).x i
        = st.x i + P.dT * (tent_v P sL lL sqrtQ nw st i).1 := by
      show st.x i + P.dT * (clamp_v P sL lL sqrtQ nw st i).1 = _
      rw [hc]
    have hy2 : (simulate_step P sL lL sqrtQ nw st).y i
        = st.y i + P.dT * (tent_v P sL lL sqrtQ nw st i).2 := by
      show st.y i + P.dT * (clamp_v P sL lL sqrtQ nw st i).2 = _
      rw [hc]
    constructor
    · rw [hx2, show st.x i + P.dT * (tent_v P sL lL sqrtQ nw st i).1 - st.x i
          = P.dT * (tent_v P sL lL sqrtQ nw st i).1 from by ring,
        abs_mul, abs_of_nonneg hdT]
      exact mul_le_mul_of_nonneg_left habs1 hdT
    · rw [hy2, show st.y i + P.dT * (tent_v P sL lL sqrtQ nw st i).2 - st.y i
          = P.dT * (tent_v P sL lL sqrtQ nw st i).2 from by ring,
        abs_mul, abs_of_nonneg hdT]
      exact mul_le_mul_of_nonneg_left habs2 hdT

/-- Witness for the amended `C8` theorem: the pinned node of the drifting
two-node configuration satisfies `pinned_step_ok`. -/
theorem simulate_step_pinned_witness :
    (pin_node cex_state 0).pins 0 = 0
    ∧ pinned_step_ok default_params (fun _ => 1) (fun _ => 1) cex_sqrt 1
        (pin_node cex_state 0) 0 :=
  ⟨rfl, simulate_step_pinned default_params (fun _ => 1) (fun _ => 1)
    cex_sqrt 1 (pin_node cex_state 0) 0 rfl⟩

/-- `getD` at literal index 0 of an explicit cons. -/
theorem getD_cons_0 {A : Type} (x d : A) (l : List A) : (x :: l).getD 0 d = x := rfl

/-- `getD` at literal index 1 of an explicit cons. -/
theorem getD_cons_1 {A : Type} (x y d : A) (l : List A) :
    (x :: y :: l).getD 1 d = y := rfl

/-- `getD` at literal index 2 of an explicit cons. -/
theorem getD_cons_2 {A : Type} (x y z d : A) (l : List A) :
    (x :: y :: z :: l).getD 2 d = z := rfl

/-- `getD` at literal index 3 of an explicit cons. -/
theorem getD_cons_3 {A : Type} (x y z w d : A) (l : List A) :
    (x :: y :: z :: w :: l).getD 3 d = w := rfl

/-- The first tallying pass emits no token when the two rows are equal:
every column compares a character with itself. -/
theorem tally_muts_self (t : List Char) : tally_muts t t = [] := by
  have h : ∀ (idxs : List ℕ) (ms : List Mut) (j : ℕ),
      ((idxs.foldl (fun (st : List Mut × ℕ) i =>
        let a := t.getD i '-'
        let b := t.getD i '-'
        let muts := if a = '-' ∧ b ≠ '-' then st.1 ++ [⟨'+', st.2, [], [b]⟩]
          else if a ≠ '-' ∧ b = '-' then st.1 ++ [⟨'-', st.2, [a], []⟩]
          else if a ≠ b then st.1 ++ [⟨Char.ofNat 0, st.2, [a], [b]⟩]
          else st.1
        (muts, st.2 + if a ≠ '-' then 1 else 0)) (ms, j)).1) = ms := by
    intro idxs
    induction idxs with
    | nil => intro ms j; rfl
    | cons i rest ih =>
      intro ms j
      rw [List.foldl_cons]
      have h1 : ¬(t.getD i '-' = '-' ∧ t.getD i '-' ≠ '-') := fun h => h.2 h.1
      have h2 : ¬(t.getD i '-' ≠ '-' ∧ t.getD i '-' = '-') := fun h => h.1 h.2
      have h3 : ¬(t.getD i '-' ≠ t.getD i '-') := fun h => h rfl
      simp only [if_neg h1, if_neg h2, if_neg h3]
      exact ih _ _
  exact h _ _ _

/-- Tallying an alignment against itself yields no tokens at all. -/
theorem tally_alignment_mutations_self (t : List Char) :
    tally_alignment_mutations t t = [] := by
  unfold tally_alignment_mutations
  rw [tally_muts_self]
  rfl

/-- Every ACGT codon translates to some residue, and that residue is never
the gap character. -/
theorem codon_lookup_acgt :
    ∀ x ∈ (['A', 'C', 'G', 'T'] : List Char),
      ∀ y ∈ (['A', 'C', 'G', 'T'] : List Char),
        ∀ z ∈ (['A', 'C', 'G', 'T'] : List Char),
          (codon_lookup [x, y, z]).getD '-' ≠ '-' := by decide

/-- `C10` (confirmed): for two identical ungapped 9-nucleotide (ACGT)
sequences, `contrained_nw_align` returns two identical gap-free 3-residue
amino-acid strings, and `tally_alignment_mutations` on that alignment
returns no tokens. -/
theorem contrained_nw_align_identical (seq : List Char) (hlen : seq.length = 9)
    (hval : ∀ c ∈ seq, c ∈ (['A', 'C', 'G', 'T'] : List Char)) :
    ∃ t : List Char,
      contrained_nw_align seq seq 4 = some (t, t)
      ∧ t.length = 3 ∧ (∀ c ∈ t, c ≠ '-')
      ∧ tally_alignment_mutations t t = [] := by
  rcases seq with _ | ⟨a1, _ | ⟨a2, _ | ⟨a3, _ | ⟨a4, _ | ⟨a5, _ | ⟨a6, _ | ⟨a7,
    _ | ⟨a8, _ | ⟨a9, rest⟩⟩⟩⟩⟩⟩⟩⟩⟩
  · exact absurd hlen (by simp)
  · exact absurd hlen (by simp)
  · exact absurd hlen (by simp)
  · exact absurd hlen (by simp)
  · exact absurd hlen (by simp)
  · exact absurd hlen (by simp)
  · exact absurd hlen (by simp)
  · exact absurd hlen (by simp)
  · exact absurd hlen (by simp)
  have hrest : rest = [] := by
    simp only [List.length_cons] at hlen
    exact List.eq_nil_of_length_eq_zero (by omega)
  subst hrest
  have hne : ∀ c ∈ (['A', 'C', 'G', 'T'] : List Char), c ≠ '-' := by decide
  have hv1 : a1 ∈ (['A', 'C', 'G', 'T'] : List Char) := hval a1 (by simp)
  have hv2 : a2 ∈ (['A', 'C', 'G', 'T'] : List Char) := hval a2 (by simp)
  have hv3 : a3 ∈ (['A', 'C', 'G', 'T'] : List Char) := hval a3 (by simp)
  have hv4 : a4 ∈ (['A', 'C', 'G', 'T'] : List Char) := hval a4 (by simp)
  have hv5 : a5 ∈ (['A', 'C', 'G', 'T'] : List Char) := hval a5 (by simp)
  have hv6 : a6 ∈ (['A', 'C', 'G', 'T'] : List Char) := hval a6 (by simp)
  have hv7 : a7 ∈ (['A', 'C', 'G', 'T'] : List Char) := hval a7 (by simp)
  have hv8 : a8 ∈ (['A', 'C', 'G', 'T'] : List Char) := hval a8 (by simp)
  have hv9 : a9 ∈ (['A', 'C', 'G', 'T'] : List Char) := hval a9 (by simp)
  have hne1 : a1 ≠ '-' := hne a1 hv1
  have hne2 : a2 ≠ '-' := hne a2 hv2
  have hne3 : a3 ≠ '-' := hne a3 hv3
  have hne4 : a4 ≠ '-' := hne a4 hv4
  have hne5 : a5 ≠ '-' := hne a5 hv5
  have hne6 : a6 ≠ '-' := hne a6 hv6
  have hne7 : a7 ≠ '-' := hne a7 hv7
  have hne8 : a8 ≠ '-' := hne a8 hv8
  have hne9 : a9 ≠ '-' := hne a9 hv9
  have hfcb : find_codon_boundaries [a1, a2, a3, a4, a5, a6, a7, a8, a9]
      = [(0, 3), (3, 3), (6, 3)] := by
    simp [find_codon_boundaries, fcb_go, hne1, hne2, hne3, hne4, hne5, hne6,
      hne7, hne8, hne9]
  have hres : ∀ x y z : Char, x ∈ (['A', 'C', 'G', 'T'] : List Char) →
      y ∈ (['A', 'C', 'G', 'T'] : List Char) →
      z ∈ (['A', 'C', 'G', 'T'] : List Char) →
      ∃ r, codon_lookup [x, y, z] = some r ∧ r ≠ '-' := by
    intro x y z hx hy hz
    have h := codon_lookup_acgt x hx y hy z hz
    rcases hcl : codon_lookup [x, y, z] with _ | r
    · rw [hcl] at h
      simp at h
    · rw [hcl] at h
      exact ⟨r, rfl, by simpa using h⟩
  obtain ⟨r1, hr1, hr1ne⟩ := hres a1 a2 a3 hv1 hv2 hv3
  obtain ⟨r2, hr2, hr2ne⟩ := hres a4 a5 a6 hv4 hv5 hv6
  obtain ⟨r3, hr3, hr3ne⟩ := hres a7 a8 a9 hv7 hv8 hv9
  have hresidue1 : residue [a1, a2, a3, a4, a5, a6, a7, a8, a9] (0, 3)
      = some r1 := by
    show (translate [a1, a2, a3]).bind List.head? = some r1
    simp [translate, translate_go, hne1, hne2, hne3, hr1]
  have hresidue2 : residue [a1, a2, a3, a4, a5, a6, a7, a8, a9] (3, 3)
      = some r2 := by
    show (translate [a4, a5, a6]).bind List.head? = some r2
    simp [translate, translate_go, hne4, hne5, hne6, hr2]
  have hresidue3 : residue [a1, a2, a3, a4, a5, a6, a7, a8, a9] (6, 3)
      = some r3 := by
    show (translate [a7, a8, a9]).bind List.head? = some r3
    simp [translate, translate_go, hne7, hne8, hne9, hr3]
  have hm00 : nw_match [a1, a2, a3, a4, a5, a6, a7, a8, a9]
      [a1, a2, a3, a4, a5, a6, a7, a8, a9]
      [(0, 3), (3, 3), (6, 3)] [(0, 3), (3, 3), (6, 3)] 0 0 = some 3 := by
    simp only [nw_match, getD_cons_0,
      show intersect ((0, 3) : ℕ × ℕ) ((0, 3) : ℕ × ℕ) = some ((0, 3) : ℕ × ℕ)
        from by decide, Option.map_some']
    norm_num [show List.range' 0 3 = [0, 1, 2] from rfl, List.filter,
      show ([a1, a2, a3, a4, a5, a6, a7, a8, a9].getD 0 '-') = a1 from rfl,
      show ([a1, a2, a3, a4, a5, a6, a7, a8, a9].getD 1 '-') = a2 from rfl,
      show ([a1, a2, a3, a4, a5, a6, a7, a8, a9].getD 2 '-') = a3 from rfl,
      hne1, hne2, hne3]
  have hm11 : nw_match [a1, a2, a3, a4, a5, a6, a7, a8, a9]
      [a1, a2, a3, a4, a5, a6, a7, a8, a9]
      [(0, 3), (3, 3), (6, 3)] [(0, 3), (3, 3), (6, 3)] 1 1 = some 3 := by
    simp only [nw_match, getD_cons_1,
      show intersect ((3, 3) : ℕ × ℕ) ((3, 3) : ℕ × ℕ) = some ((3, 3) : ℕ × ℕ)
        from by decide, Option.map_some']
    norm_num [show List.range' 3 3 = [3, 4, 5] from rfl, List.filter,
      show ([a1, a2, a3, a4, a5, a6, a7, a8, a9].getD 3 '-') = a4 from rfl,
      show ([a1, a2, a3, a4, a5, a6, a7, a8, a9].getD 4 '-') = a5 from rfl,
      show ([a1, a2, a3, a4, a5, a6, a7, a8, a9].getD 5 '-') = a6 from rfl,
      hne4, hne5, hne6]
  have hm22 : nw_match [a1, a2, a3, a4, a5, a6, a7, a8, a9]
      [a1, a2, a3, a4, a5, a6, a7, a8, a9]
      [(0, 3), (3, 3), (6, 3)] [(0, 3), (3, 3), (6, 3)] 2 2 = some 3 := by
    simp only [nw_match, getD_cons_2,
      show intersect ((6, 3) : ℕ × ℕ) ((6, 3) : ℕ × ℕ) = some ((6, 3) : ℕ × ℕ)
        from by decide, Option.map_some']
    norm_num [show List.range' 6 3 = [6, 7, 8] from rfl, List.filter,
      show ([a1, a2, a3, a4, a5, a6, a7, a8, a9].getD 6 '-') = a7 from rfl,
      show ([a1, a2, a3, a4, a5, a6, a7, a8, a9].getD 7 '-') = a8 from rfl,
      show ([a1, a2, a3, a4, a5, a6, a7, a8, a9].getD 8 '-') = a9 from rfl,
      hne7, hne8, hne9]
  have hm01 : nw_match [a1, a2, a3, a4, a5, a6, a7, a8, a9]
      [a1, a2, a3, a4, a5, a6, a7, a8, a9]
      [(0, 3), (3, 3), (6, 3)] [(0, 3), (3, 3), (6, 3)] 0 1 = none := by
    simp only [nw_match, getD_cons_0, getD_cons_1,
      show intersect ((0, 3) : ℕ × ℕ) ((3, 3) : ℕ × ℕ) = none from by decide,
      Option.map_none']
  have hm02 : nw_match [a1, a2, a3, a4, a5, a6, a7, a8, a9]
      [a1, a2, a3, a4, a5, a6, a7, a8, a9]
      [(0, 3), (3, 3), (6, 3)] [(0, 3), (3, 3), (6, 3)] 0 2 = none := by
    simp only [nw_match, getD_cons_0, getD_cons_2,
      show intersect ((0, 3) : ℕ × ℕ) ((6, 3) : ℕ × ℕ) = none from by decide,
      Option.map_none']
  have hm10 : nw_match [a1, a2, a3, a4, a5, a6, a7, a8, a9]
      [a1, a2, a3, a4, a5, a6, a7, a8, a9]
      [(0, 3), (3, 3), (6, 3)] [(0, 3), (3, 3), (6, 3)] 1 0 = none := by
    simp only [nw_match, getD_cons_0, getD_cons_1,
      show intersect ((3, 3) : ℕ × ℕ) ((0, 3) : ℕ × ℕ) = none from by decide,
      Option.map_none']
  have hm12 : nw_match [a1, a2, a3, a4, a5, a6, a7, a8, a9]
      [a1, a2, a3, a4, a5, a6, a7, a8, a9]
      [(0, 3), (3, 3), (6, 3)] [(0, 3), (3, 3), (6, 3)] 1 2 = none := by
    simp only [nw_match, getD_cons_1, getD_cons_2,
      show intersect ((3, 3) : ℕ × ℕ) ((6, 3) : ℕ × ℕ) = none from by decide,
      Option.map_none']
  have hm20 : nw_match [a1, a2, a3, a4, a5, a6, a7, a8, a9]
      [a1, a2, a3, a4, a5, a6, a7, a8, a9]
      [(0, 3), (3, 3), (6, 3)] [(0, 3), (3, 3), (6, 3)] 2 0 = none := by
    simp only [nw_match, getD_cons_0, getD_cons_2,
      show intersect ((6, 3) : ℕ × ℕ) ((0, 3) : ℕ × ℕ) = none from by decide,
      Option.map_none']
  have hm21 : nw_match [a1, a2, a3, a4, a5, a6, a7, a8, a9]
      [a1, a2, a3, a4, a5, a6, a7, a8, a9]
      [(0, 3), (3, 3), (6, 3)] [(0, 3), (3, 3), (6, 3)] 2 1 = none := by
    simp only [nw_match, getD_cons_1, getD_cons_2,
      show intersect ((6, 3) : ℕ × ℕ) ((3, 3) : ℕ × ℕ) = none from by decide,
      Option.map_none']
  have hR1 : nw_row (nw_match [a1, a2, a3, a4, a5, a6, a7, a8, a9]
        [a1, a2, a3, a4, a5, a6, a7, a8, a9]
        [(0, 3), (3, 3), (6, 3)] [(0, 3), (3, 3), (6, 3)]) 3 3 4 1
      [⟨Char.ofNat 0, some 0⟩, ⟨'a', some 0⟩, ⟨'a', some 0⟩, ⟨'a', some 0⟩]
      = [⟨'b', some 0⟩, ⟨'m', some 3⟩, ⟨'a', some (-1)⟩, ⟨'a', some (-1)⟩] := by
    norm_num [nw_row, show List.range' 1 3 = [1, 2, 3] from rfl,
      List.foldl_cons, List.foldl_nil, max_el3, trace_better, olt, oadd, osub,
      getD_cons_0, getD_cons_1, getD_cons_2, getD_cons_3,
      hm00, hm01, hm02, decide_eq_true_eq]
  have hR2 : nw_row (nw_match [a1, a2, a3, a4, a5, a6, a7, a8, a9]
        [a1, a2, a3, a4, a5, a6, a7, a8, a9]
        [(0, 3), (3, 3), (6, 3)] [(0, 3), (3, 3), (6, 3)]) 3 3 4 2
      [⟨'b', some 0⟩, ⟨'m', some 3⟩, ⟨'a', some (-1)⟩, ⟨'a', some (-1)⟩]
      = [⟨'b', some 0⟩, ⟨'b', some (-1)⟩, ⟨'m', some 6⟩, ⟨'a', some 6⟩] := by
    norm_num [nw_row, show List.range' 1 3 = [1, 2, 3] from rfl,
      List.foldl_cons, List.foldl_nil, max_el3, trace_better, olt, oadd, osub,
      getD_cons_0, getD_cons_1, getD_cons_2, getD_cons_3,
      hm10, hm11, hm12, decide_eq_true_eq]
  have hR3 : nw_row (nw_match [a1, a2, a3, a4, a5, a6, a7, a8, a9]
        [a1, a2, a3, a4, a5, a6, a7, a8, a9]
        [(0, 3), (3, 3), (6, 3)] [(0, 3), (3, 3), (6, 3)]) 3 3 4 3
      [⟨'b', some 0⟩, ⟨'b', some (-1)⟩, ⟨'m', some 6⟩, ⟨'a', some 6⟩]
      = [⟨'b', some 0⟩, ⟨'b', some (-1)⟩, ⟨'b', some 6⟩, ⟨'m', some 9⟩] := by
    norm_num [nw_row, show List.range' 1 3 = [1, 2, 3] from rfl,
      List.foldl_cons, List.foldl_nil, max_el3, trace_better, olt, oadd, osub,
      getD_cons_0, getD_cons_1, getD_cons_2, getD_cons_3,
      hm20, hm21, hm22, decide_eq_true_eq]
  have hmat : nw_matrix (nw_match [a1, a2, a3, a4, a5, a6, a7, a8, a9]
        [a1, a2, a3, a4, a5, a6, a7, a8, a9]
        [(0, 3), (3, 3), (6, 3)] [(0, 3), (3, 3), (6, 3)]) 3 3 4
      = [[⟨Char.ofNat 0, some 0⟩, ⟨'a', some 0⟩, ⟨'a', some 0⟩, ⟨'a', some 0⟩],
         [⟨'b', some 0⟩, ⟨'m', some 3⟩, ⟨'a', some (-1)⟩, ⟨'a', some (-1)⟩],
         [⟨'b', some 0⟩, ⟨'b', some (-1)⟩, ⟨'m', some 6⟩, ⟨'a', some 6⟩],
         [⟨'b', some 0⟩, ⟨'b', some (-1)⟩, ⟨'b', some 6⟩, ⟨'m', some 9⟩]] := by
    simp only [nw_matrix, show List.range' 1 3 = [1, 2, 3] from rfl,
      List.map_cons, List.map_nil,
      List.foldl_cons, List.foldl_nil, List.cons_append, List.nil_append,
      show (1 : ℕ) - 1 = 0 from rfl, show (2 : ℕ) - 1 = 1 from rfl,
      show (3 : ℕ) - 1 = 2 from rfl,
      getD_cons_0, getD_cons_1, getD_cons_2, getD_cons_3]
    rw [hR1, hR2, hR3]
  have h00 : traceback [a1, a2, a3, a4, a5, a6, a7, a8, a9]
      [a1, a2, a3, a4, a5, a6, a7, a8, a9]
      [(0, 3), (3, 3), (6, 3)] [(0, 3), (3, 3), (6, 3)]
      [[⟨Char.ofNat 0, some 0⟩, ⟨'a', some 0⟩, ⟨'a', some 0⟩, ⟨'a', some 0⟩],
       [⟨'b', some 0⟩, ⟨'m', some 3⟩, ⟨'a', some (-1)⟩, ⟨'a', some (-1)⟩],
       [⟨'b', some 0⟩, ⟨'b', some (-1)⟩, ⟨'m', some 6⟩, ⟨'a', some 6⟩],
       [⟨'b', some 0⟩, ⟨'b', some (-1)⟩, ⟨'b', some 6⟩, ⟨'m', some 9⟩]]
      4 0 0 = some ([], []) := by
    rw [show (4 : ℕ) = 3 + 1 from rfl, traceback]
    simp +decide [getD_cons_0]
  have h11 : traceback [a1, a2, a3, a4, a5, a6, a7, a8, a9]
      [a1, a2, a3, a4, a5, a6, a7, a8, a9]
      [(0, 3), (3, 3), (6, 3)] [(0, 3), (3, 3), (6, 3)]
      [[⟨Char.ofNat 0, some 0⟩, ⟨'a', some 0⟩, ⟨'a', some 0⟩, ⟨'a', some 0⟩],
       [⟨'b', some 0⟩, ⟨'m', some 3⟩, ⟨'a', some (-1)⟩, ⟨'a', some (-1)⟩],
       [⟨'b', some 0⟩, ⟨'b', some (-1)⟩, ⟨'m', some 6⟩, ⟨'a', some 6⟩],
       [⟨'b', some 0⟩, ⟨'b', some (-1)⟩, ⟨'b', some 6⟩, ⟨'m', some 9⟩]]
      5 1 1 = some ([r1], [r1]) := by
    rw [show (5 : ℕ) = 4 + 1 from rfl, traceback]
    simp +decide [getD_cons_0, getD_cons_1, hresidue1, h00]
  have h22 : traceback [a1, a2, a3, a4, a5, a6, a7, a8, a9]
      [a1, a2, a3, a4, a5, a6, a7, a8, a9]
      [(0, 3), (3, 3), (6, 3)] [(0, 3), (3, 3), (6, 3)]
      [[⟨Char.ofNat 0, some 0⟩, ⟨'a', some 0⟩, ⟨'a', some 0⟩, ⟨'a', some 0⟩],
       [⟨'b', some 0⟩, ⟨'m', some 3⟩, ⟨'a', some (-1)⟩, ⟨'a', some (-1)⟩],
       [⟨'b', some 0⟩, ⟨'b', some (-1)⟩, ⟨'m', some 6⟩, ⟨'a', some 6⟩],
       [⟨'b', some 0⟩, ⟨'b', some (-1)⟩, ⟨'b', some 6⟩, ⟨'m', some 9⟩]]
      6 2 2 = some ([r1, r2], [r1, r2]) := by
    rw [show (6 : ℕ) = 5 + 1 from rfl, traceback]
    simp +decide [getD_cons_1, getD_cons_2, hresidue2, h11]
  have h33 : traceback [a1, a2, a3, a4, a5, a6, a7, a8, a9]
      [a1, a2, a3, a4, a5, a6, a7, a8, a9]
      [(0, 3), (3, 3), (6, 3)] [(0, 3), (3, 3), (6, 3)]
      [[⟨Char.ofNat 0, some 0⟩, ⟨'a', some 0⟩, ⟨'a', some 0⟩, ⟨'a', some 0⟩],
       [⟨'b', some 0⟩, ⟨'m', some 3⟩, ⟨'a', some (-1)⟩, ⟨'a', some (-1)⟩],
       [⟨'b', some 0⟩, ⟨'b', some (-1)⟩, ⟨'m', some 6⟩, ⟨'a', some 6⟩],
       [⟨'b', some 0⟩, ⟨'b', some (-1)⟩, ⟨'b', some 6⟩, ⟨'m', some 9⟩]]
      7 3 3 = some ([r1, r2, r3], [r1, r2, r3]) := by
    rw [show (7 : ℕ) = 6 + 1 from rfl, traceback]
    simp +decide [getD_cons_2, getD_cons_3, hresidue3, h22]
  refine ⟨[r1, r2, r3], ?_, rfl, ?_, tally_alignment_mutations_self _⟩
  · simp only [contrained_nw_align]
    rw [hfcb]
    rw [show ([(0, 3), (3, 3), (6, 3)] : List (ℕ × ℕ)).length = 3 from rfl]
    rw [hmat]
    rw [show (3 + 3 + 1 : ℕ) = 7 from rfl]
    exact h33
  · intro c hc
    rcases List.mem_cons.mp hc with rfl | hc2
    · exact hr1ne
    rcases List.mem_cons.mp hc2 with rfl | hc3
    · exact hr2ne
    rcases List.mem_cons.mp hc3 with rfl | hc4
    · exact hr3ne
    · exact absurd hc4 (List.not_mem_nil c)

/-- Witness for `C10`: the all-adenine 9-mer. -/
theorem contrained_nw_align_identical_witness :
    ∃ t : List Char,
      contrained_nw_align ['A', 'A', 'A', 'A', 'A', 'A', 'A', 'A', 'A']
          ['A', 'A', 'A', 'A', 'A', 'A', 'A', 'A', 'A'] 4 = some (t, t)
      ∧ t.length = 3 ∧ (∀ c ∈ t, c ≠ '-')
      ∧ tally_alignment_mutations t t = [] :=
  contrained_nw_align_identical ['A', 'A', 'A', 'A', 'A', 'A', 'A', 'A', 'A']
    (by decide) (by decide)

end Dandelions
